import Mathlib

/-!
# Verification of the diff-decomposition / review-validation core

Shallow embedding of the core functions of `src/unnamed/part_000`
(an AI code-review GitHub action): the comment validator
(`validateCommentLine`), the patch chunker (`splitLargeFilePatch`,
`splitByLines`), the resumable per-file diff fetcher
(`getIndividualFileDiffs`), the model-response parser (`getAIResponse`),
the analysis driver (`analyzeCode`) and the submission batcher
(`postReviewComments`).  JavaScript strings are Lean `String`s, JS arrays
are Lean `List`s, JS numbers that hold line counts / indices are `Nat`
(model line numbers coming from the model's reply are `Int`), and the
external collaborators (octokit, the OpenAI client, `JSON.parse`,
`parse-diff`) are abstracted as explicit parameters.
-/

namespace AICodeReviewer

/-! ## Data model -/

/-- `ReviewComment` of the source: one proposed annotation. -/
structure ReviewComment where
  body : String
  path : String
  line : Int
deriving DecidableEq

/-- One per-line change record of a parsed unified diff, as produced by the
external `parse-diff` library: an `add` record carries the new-file line
`ln`, a `del` record the old-file line `ln`, and a `normal` (context)
record carries `ln1` (old-file line) and `ln2` (new-file line). -/
inductive Change where
  | add (ln : Nat) (content : String)
  | del (ln : Nat) (content : String)
  | normal (ln1 : Nat) (ln2 : Nat) (content : String)
deriving DecidableEq

/-- One hunk of a parsed file (`Chunk` of `parse-diff`). -/
structure DiffChunk where
  content : String
  changes : List Change
deriving DecidableEq

/-- One file of a parsed diff (`File` of `parse-diff`); `from_` / `to_` are
the source's `from` / `to` fields, the old and new paths (`undefined`
modelled as `none`). -/
structure ParsedFile where
  from_ : Option String
  to_ : Option String
  chunks : List DiffChunk
deriving DecidableEq

/-- `PRDetails` of the source. -/
structure PRDetails where
  owner : String
  repo : String
  pull_number : Nat
  title : String
  description : String
deriving DecidableEq

/-! ## Comment validator (source lines 623-664) -/

/-- The per-record test of `validateCommentLine` (source lines 640-650):
an `add` record matches if its `ln` equals the comment's line, a `del`
record if its `ln` does, a `normal` record if `ln1` or `ln2` does. -/
def changeMatchesLine (line : Int) : Change → Bool
  | .add ln _ => (ln : Int) == line
  | .del ln _ => (ln : Int) == line
  | .normal ln1 ln2 _ => (ln1 : Int) == line || (ln2 : Int) == line

/-- The chunk scan of `validateCommentLine` (source lines 637-653). -/
def lineExistsInFile (file : ParsedFile) (line : Int) : Bool :=
  file.chunks.any (fun chunk => chunk.changes.any (changeMatchesLine line))

/-- `validateCommentLine` (source lines 623-664): keep a comment iff the
first file of the parsed diff whose new path (`to`) or old path (`from`)
equals the comment's path has a change record matching the comment's
line; a candidate with no matching file, or whose matched file has no
matching record, is dropped. -/
def validateCommentLine (comments : List ReviewComment)
    (parsedDiff : List ParsedFile) : List ReviewComment :=
  comments.filter (fun comment =>
    match parsedDiff.find? (fun file =>
        file.to_ == some comment.path || file.from_ == some comment.path) with
    | some fileInDiff => lineExistsInFile fileInDiff comment.line
    | none => false)

/-- The list of comments `createReviewComment` (source lines 778-799) hands
to `postReviewComments`: the validated list, and nothing at all when
validation leaves nothing. -/
def createReviewCommentSubmitted (comments : List ReviewComment)
    (parsedDiff : List ParsedFile) : List ReviewComment :=
  let validComments := validateCommentLine comments parsedDiff
  if validComments.length = 0 then [] else validComments

/-! ## Patch chunker (source lines 407-477)

The JS regex `/(@@ -\d+,\d+ \+\d+,\d+ @@.*)/g` is modelled character by
character: `.` does not match a newline and every literal of the pattern is
a non-newline character, so each regex match starts at an occurrence of the
header shape and extends to the end of that line.  `String.split` with a
fully-capturing regex returns the non-matching segments interleaved with
the matches, and concatenating all returned pieces restores the input. -/

/-- Concatenation of a list of strings (the order in which the source
concatenates hunks into `currentChunk`). -/
def concatStrings : List String → String
  | [] => ""
  | s :: rest => s ++ concatStrings rest

/-- JS `s.split('\n').length`: one more than the number of newlines. -/
def countLines (s : String) : Nat := s.data.count '\n' + 1

/-- JS `s.split('\n')` at the character level. -/
def lineSplit : List Char → List (List Char)
  | [] => [[]]
  | c :: cs =>
    if c = '\n' then [] :: lineSplit cs
    else
      match lineSplit cs with
      | [] => [[c]]
      | l :: ls => (c :: l) :: ls

/-- JS `s.split('\n')` as a list of strings. -/
def linesOf (s : String) : List String := (lineSplit s.data).map String.mk

/-- JS `lines.join('\n')` at the character level. -/
def joinLinesData : List (List Char) → List Char
  | [] => []
  | [l] => l
  | l :: ls => l ++ '\n' :: joinLinesData ls

/-- JS `lines.join('\n')`. -/
def joinLines (lines : List String) : String :=
  String.mk (joinLinesData (lines.map String.data))

/-- Consume one expected character. -/
def eatChar (c : Char) : List Char → Option (List Char)
  | d :: rest => if d = c then some rest else none
  | [] => none

/-- Consume one or more decimal digits (the regex `\d+`; the following
pattern characters are never digits, so greedy matching is maximal munch). -/
def eatDigits1 : List Char → Option (List Char)
  | c :: rest => if c.isDigit then some (rest.dropWhile Char.isDigit) else none
  | [] => none

/-- Try to match `@@ -\d+,\d+ \+\d+,\d+ @@` at the head of the input. -/
def matchHunkPrefix (cs : List Char) : Option (List Char) :=
  ((((((((((((((eatChar '@' cs).bind (eatChar '@')).bind (eatChar ' ')).bind
    (eatChar '-')).bind eatDigits1).bind (eatChar ',')).bind eatDigits1).bind
    (eatChar ' ')).bind (eatChar '+')).bind eatDigits1).bind (eatChar ',')).bind
    eatDigits1).bind (eatChar ' ')).bind (eatChar '@')).bind (eatChar '@')

/-- Does a regex match of the hunk-header pattern start at this position? -/
def isHunkHeaderStart (cs : List Char) : Bool := (matchHunkPrefix cs).isSome

/-- The piece scanner behind `patch.split(hunkRegex)` (source line 416):
walk the characters left to right; when the header pattern starts at the
current position, close the current non-match piece and open a match piece,
which (like the regex's trailing `.*`) extends to the end of the line.
Pieces are tagged `true` when they are regex matches.  `accRev` holds the
current piece's characters in reverse. -/
def scanGo : List Char → List Char → Bool → List (Bool × List Char) →
    List (Bool × List Char)
  | [], accRev, inMatch, out => out ++ [(inMatch, accRev.reverse)]
  | c :: cs, accRev, inMatch, out =>
    if inMatch then
      if c = '\n' then scanGo cs [c] false (out ++ [(true, accRev.reverse)])
      else scanGo cs (c :: accRev) true out
    else
      if isHunkHeaderStart (c :: cs) then
        scanGo cs [c] true (out ++ [(false, accRev.reverse)])
      else scanGo cs (c :: accRev) false out

/-- `patch.split(hunkRegex)` (source line 416), with each piece tagged by
whether it is a regex match. -/
def jsSplitHunkPieces (patch : String) : List (Bool × String) :=
  (scanGo patch.data [] false []).map (fun p => (p.1, String.mk p.2))

/-- `patch.split(hunkRegex).filter(Boolean)` (source line 416): the pieces,
empty strings removed. -/
def hunkSplitFiltered (patch : String) : List String :=
  ((jsSplitHunkPieces patch).map Prod.snd).filter (fun s => s != "")

/-- The number of regex matches of the hunk-header pattern in the patch
(the number of hunk boundaries the split detects). -/
def numHunkBoundaries (patch : String) : Nat :=
  ((jsSplitHunkPieces patch).filter (fun p => p.1)).length

/-- The hunk reconstruction loop (source lines 424-431): the regex split
alternates non-match and match pieces, and consecutive pairs are glued
back together two at a time (`hunks[i] + hunks[i+1]`, a trailing odd piece
kept alone). -/
def pairUp : List String → List String
  | a :: b :: rest => (a ++ b) :: pairUp rest
  | [a] => [a]
  | [] => []

/-- The synthetic per-chunk file header
`diff --git a/<f> b/<f>\n--- a/<f>\n+++ b/<f>\n`
(source lines 444, 456, 473). -/
def fileHeader (filename : String) : String :=
  "diff --git a/" ++ filename ++ " b/" ++ filename ++ "\n--- a/" ++ filename
    ++ "\n+++ b/" ++ filename ++ "\n"

/-- The greedy packing loop of `splitLargeFilePatch` (source lines 434-457),
with each chunk kept as the list of hunks it packs (`currentChunk` of the
source is `concatStrings` of the current group): a hunk whose line count
would push the running chunk over `maxLinesPerChunk` closes the chunk,
except that a chunk is never closed while still empty. -/
def packGroupsGo (maxLinesPerChunk : Nat) :
    List String → List String → Nat → List (List String) → List (List String)
  | [], currentChunk, _, chunks =>
    if concatStrings currentChunk ≠ "" then chunks ++ [currentChunk] else chunks
  | hunk :: rest, currentChunk, currentChunkLines, chunks =>
    let hunkLines := countLines hunk
    if currentChunkLines + hunkLines > maxLinesPerChunk ∧
        concatStrings currentChunk ≠ "" then
      packGroupsGo maxLinesPerChunk rest [hunk] hunkLines (chunks ++ [currentChunk])
    else
      packGroupsGo maxLinesPerChunk rest (currentChunk ++ [hunk])
        (currentChunkLines + hunkLines) chunks

/-- `properHunks` of `splitLargeFilePatch` (source lines 424-431). -/
def properHunksOf (patch : String) : List String :=
  pairUp (hunkSplitFiltered patch)

/-- The packed hunk groups of `splitLargeFilePatch` (source lines 434-457);
the produced chunks are `fileHeader filename ++ concatStrings group`. -/
def hunkGroupsOf (patch : String) : List (List String) :=
  packGroupsGo 5000 (properHunksOf patch) [] 0 []

/-- The loop of `splitByLines` (source lines 471-474): fixed windows of
5000 lines, each re-headered with a `@@ Chunk <k>/<n> @@` marker.  `fuel`
bounds the recursion and is adequate from `lines.length`. -/
def splitByLinesGo (filename : String) (total : Nat) :
    Nat → Nat → List String → List String
  | _, _, [] => []
  | 0, _, _ :: _ => []
  | fuel + 1, i, lines@(_ :: _) =>
    (fileHeader filename ++ "@@ Chunk " ++ toString (i / 5000 + 1) ++ "/"
        ++ toString ((total + 4999) / 5000) ++ " @@\n"
        ++ joinLines (lines.take 5000))
      :: splitByLinesGo filename total fuel (i + 5000) (lines.drop 5000)

/-- `splitByLines` (source lines 466-477): naive fixed-size line windows
(`maxLinesPerChunk = 5000`), `Math.ceil(lines.length/5000)` of them, each
prefixed with the synthetic file header and a chunk-index marker. -/
def splitByLines (filename patch : String) : List String :=
  let lines := linesOf patch
  splitByLinesGo filename lines.length lines.length 0 lines

/-- `splitLargeFilePatch` (source lines 413-461): split at hunk-header
regex matches; with at most one nonempty piece, fall back to
`splitByLines`; otherwise glue the pieces into whole hunks and greedily
pack them into chunks of at most 5000 hunk lines, each prefixed with the
synthetic file header. -/
def splitLargeFilePatch (filename patch : String) : List String :=
  let hunks := hunkSplitFiltered patch
  if hunks.length ≤ 1 then
    splitByLines filename patch
  else
    (hunkGroupsOf patch).map
      (fun group => fileHeader filename ++ concatStrings group)

/-- C1: `validateCommentLine` returns a comment only if the parsed diff
contains a file whose new-path or old-path equals the comment's path and
that file has a change record matching the comment's line (an addition or
deletion record whose line number equals it, or a context record whose
old- or new-line number equals it); every candidate with no such record is
dropped, and only such validated comments reach submission
(`createReviewCommentSubmitted` is what `createReviewComment` passes to
`postReviewComments`). -/
theorem submitted_comment_has_matching_record
    (comments : List ReviewComment) (parsedDiff : List ParsedFile)
    (c : ReviewComment) (hc : c ∈ createReviewCommentSubmitted comments parsedDiff) :
    c ∈ comments ∧
      ∃ file ∈ parsedDiff,
        (file.to_ = some c.path ∨ file.from_ = some c.path) ∧
        ∃ chunk ∈ file.chunks, ∃ ch ∈ chunk.changes,
          changeMatchesLine c.line ch = true := by
  unfold createReviewCommentSubmitted at hc
  simp only at hc
  have hc' : c ∈ validateCommentLine comments parsedDiff := by
    by_cases h : (validateCommentLine comments parsedDiff).length = 0
    · simp [h] at hc
    · simpa [h] using hc
  unfold validateCommentLine at hc'
  rw [List.mem_filter] at hc'
  refine ⟨hc'.1, ?_⟩
  obtain ⟨hmem, hpred⟩ := hc'
  cases hfind : List.find? (fun file =>
      file.to_ == some c.path || file.from_ == some c.path) parsedDiff with
  | none => rw [hfind] at hpred; exact absurd hpred (by simp)
  | some file =>
    rw [hfind] at hpred
    refine ⟨file, List.mem_of_find?_eq_some hfind, ?_, ?_⟩
    · have := List.find?_some hfind
      simpa [Bool.or_eq_true, beq_iff_eq] using this
    · have hex : lineExistsInFile file c.line = true := hpred
      unfold lineExistsInFile at hex
      rw [List.any_eq_true] at hex
      obtain ⟨chunk, hchunk, hany⟩ := hex
      rw [List.any_eq_true] at hany
      obtain ⟨ch, hch, hmatch⟩ := hany
      exact ⟨chunk, hchunk, ch, hch, hmatch⟩

/-- One changed file as returned by the external file-listing capability
(`octokit.pulls.listFiles`): its path and its optional raw patch text
(binary files and some renames have none). -/
structure WorkItem where
  filename : String
  patch : Option String
deriving DecidableEq

/-- `ReviewProgress` of the source (lines 61-70): the persisted session
record. -/
structure ReviewProgress where
  prNumber : Nat
  repository : String
  processedFiles : List String
  allComments : List ReviewComment
  currentBatch : Nat
  totalFiles : Nat
  timestamp : String
  completed : Bool
deriving DecidableEq

/-- `createInitialProgress` (source lines 107-118); `now` stands for
`new Date().toISOString()`. -/
def createInitialProgress (prNumber : Nat) (repository : String)
    (totalFiles : Nat) (now : String) : ReviewProgress :=
  { prNumber := prNumber
    repository := repository
    processedFiles := []
    allComments := []
    currentBatch := 0
    totalFiles := totalFiles
    timestamp := now
    completed := false }

/-- `reconstructDiffFromProgress` (source lines 401-405). -/
def reconstructDiffFromProgress (progress : ReviewProgress) : String :=
  "# Previously processed " ++ toString progress.processedFiles.length
    ++ " files\n# Files: " ++ String.intercalate ", " progress.processedFiles
    ++ "\n"

/-- The resume test of `getIndividualFileDiffs` (source lines 226-229):
a stored session is resumed iff its key (PR number and repository) matches
the run's target and it is not completed. -/
def shouldResume (stored : Option ReviewProgress) (pull_number : Nat)
    (repository : String) : Bool :=
  match stored with
  | some progress =>
    progress.prNumber == pull_number && progress.repository == repository
      && !progress.completed
  | none => false

/-- The per-file fragment of the batch callback (source lines 302-360,
production path): a patch of more than 15000 lines is split into chunks
joined by newlines, a smaller patch is emitted verbatim under a
`diff --git` header, and a missing patch yields the minimal placeholder
fragment. -/
def processFileFragment (file : WorkItem) : String :=
  match file.patch with
  | some patch =>
    if countLines patch > 15000 then
      String.intercalate "\n" (splitLargeFilePatch file.filename patch)
    else
      "diff --git a/" ++ file.filename ++ " b/" ++ file.filename ++ "\n" ++ patch
  | none =>
    "diff --git a/" ++ file.filename ++ " b/" ++ file.filename ++ "\n--- a/"
      ++ file.filename ++ "\n+++ b/" ++ file.filename
      ++ "\n@@ File change detected, but diff not available @@"

/-- The items of one batch (source lines 301-361): each item produces its
fragment, appends its filename to `progress.processedFiles` and checkpoints
(`saveProgress`); the trace records each saved snapshot.  The callbacks
contain no `await`, so `Promise.all` runs them in list order. -/
def processBatchItems :
    List WorkItem → ReviewProgress → List ReviewProgress →
    List String × ReviewProgress × List ReviewProgress
  | [], progress, trace => ([], progress, trace)
  | file :: rest, progress, trace =>
    let fragment := processFileFragment file
    let progress' := { progress with
      processedFiles := progress.processedFiles ++ [file.filename] }
    let r := processBatchItems rest progress' (trace ++ [progress'])
    (fragment :: r.1, r.2)

/-- The batch loop of `getIndividualFileDiffs` (source lines 293-377):
slices of 10 files; after each batch the fragments are joined with
newlines and appended to the running diff, and `currentBatch` is set to
`progress.currentBatch + k + 1` (the source reads the already-updated
field, so the stored batch number grows by the iteration count each time)
and checkpointed.  `fuel` bounds the recursion and `filesToProcess.length`
is adequate. -/
def runBatches :
    Nat → Nat → List WorkItem → ReviewProgress → String → List ReviewProgress →
    String × ReviewProgress × List ReviewProgress
  | _, _, [], progress, combinedDiff, trace => (combinedDiff, progress, trace)
  | 0, _, _ :: _, progress, combinedDiff, trace => (combinedDiff, progress, trace)
  | fuel + 1, k, files@(_ :: _), progress, combinedDiff, trace =>
    let batch := files.take 10
    let batchNumber := progress.currentBatch + k + 1
    let r := processBatchItems batch progress trace
    let combinedDiff' := combinedDiff ++ String.intercalate "\n" r.1
    let progress' := { r.2.1 with currentBatch := batchNumber }
    runBatches fuel (k + 1) (files.drop 10) progress' combinedDiff'
      (r.2.2 ++ [progress'])

/-- The completion update of source lines 381-382. -/
def markCompleted (now : String) (p : ReviewProgress) : ReviewProgress :=
  { p with completed := true, timestamp := now }

/-- The completion step (source lines 379-385): once
`processedFiles.length >= totalFiles` the session is marked completed,
re-timestamped and checkpointed. -/
def finalizeProgress (now : String) (progress : ReviewProgress) :
    ReviewProgress × List ReviewProgress :=
  if progress.totalFiles ≤ progress.processedFiles.length then
    (markCompleted now progress, [markCompleted now progress])
  else (progress, [])

/-- What one run of `getIndividualFileDiffs` produces and observes:
the returned diff text, the in-memory session at return (`none` when the
run returns before a session is available), every checkpointed snapshot in
order, whether the stale-progress clear of source lines 236-238 ran, the
session the run works with (`progress` after lines 258-260), and the
worklist after the resume filter (`filesToProcess` after lines 274-279). -/
structure RunResult where
  output : String
  final : Option ReviewProgress
  trace : List ReviewProgress
  staleCleared : Bool
  initialProgress : Option ReviewProgress
  filesToProcess : List WorkItem
deriving DecidableEq

/-- The resume filter of source lines 274-279: drop every work item whose
filename is already in `processedFiles`. -/
def remainingFiles (progress : ReviewProgress) (files : List WorkItem) :
    List WorkItem :=
  files.filter (fun file => !(progress.processedFiles.contains file.filename))

/-- `getIndividualFileDiffs` (source lines 215-398), production path
(`LOCAL_TESTING` unset), with the external file listing passed in as
`files` and `new Date().toISOString()` as `now`: resume detection and
stale-session clearing (lines 224-239), the empty-worklist early returns
(lines 252-255 and 282-285), resume filtering (lines 273-279), seeding the
output with the reconstruction of prior progress (line 288), the batch
loop and the completion step. -/
def getIndividualFileDiffs (stored : Option ReviewProgress)
    (pull_number : Nat) (repository : String) (files : List WorkItem)
    (now : String) : RunResult :=
  let resume := shouldResume stored pull_number repository
  let staleCleared := !resume && stored.isSome
  if files.length = 0 then
    { output := "", final := stored, trace := [], staleCleared := staleCleared
      initialProgress := none, filesToProcess := [] }
  else
    let progress :=
      match stored with
      | some p =>
        if resume then p
        else createInitialProgress pull_number repository files.length now
      | none => createInitialProgress pull_number repository files.length now
    let filesToProcess :=
      if resume then remainingFiles progress files else files
    if filesToProcess.length = 0 then
      { output := reconstructDiffFromProgress progress, final := some progress
        trace := [], staleCleared := staleCleared
        initialProgress := some progress, filesToProcess := filesToProcess }
    else
      let seed := if resume then reconstructDiffFromProgress progress else ""
      let r := runBatches filesToProcess.length 0 filesToProcess progress seed []
      let fin := finalizeProgress now r.2.1
      { output := r.1, final := some fin.1, trace := r.2.2 ++ fin.2
        staleCleared := staleCleared, initialProgress := some progress
        filesToProcess := filesToProcess }


/-! ## Analysis response parser and analysis driver (source lines 479-620)

`JSON.parse` is an external library capability and is passed in as a
`decode` parameter producing a `JsValue`; the fence stripping, the
`parsed.reviews || parsed` extraction and the per-unit control flow are
modelled from the source. -/

/-- A decoded JSON-like value (the result of the external `JSON.parse`). -/
inductive JsValue where
  | null
  | bool (b : Bool)
  | num (n : Int)
  | str (s : String)
  | arr (elems : List JsValue)
  | obj (fields : List (String × JsValue))

/-- JS truthiness of a decoded value (arrays and objects are truthy, so an
empty `reviews` array is kept by `parsed.reviews || parsed`). -/
def jsTruthy : JsValue → Bool
  | .null => false
  | .bool b => b
  | .num n => n != 0
  | .str s => s != ""
  | .arr _ => true
  | .obj _ => true

/-- Property access on a decoded value (`parsed.reviews`); `none` stands
for `undefined`, which is also the result on any non-object. -/
def jsField (v : JsValue) (name : String) : Option JsValue :=
  match v with
  | .obj fields => (fields.find? (fun f => f.1 == name)).map Prod.snd
  | _ => none

/-- `parsed.reviews || parsed` (source line 591). -/
def extractReviews (parsed : JsValue) : JsValue :=
  match jsField parsed "reviews" with
  | some v => if jsTruthy v then v else parsed
  | none => parsed

/-- The backtick character (U+0060). -/
def backtick : Char := Char.ofNat 96

/-- JS `s.trim()`: drop whitespace from both ends. -/
def jsTrim (s : String) : String :=
  String.mk (((s.data.dropWhile Char.isWhitespace).reverse.dropWhile
    Char.isWhitespace).reverse)

/-- JS `s.startsWith(pre)`. -/
def jsStartsWith (s pre : String) : Bool := pre.data.isPrefixOf s.data

/-- The `res.replace(/^`+|`+$/g, '')` cleanup (source line 587): strip the
leading and trailing runs of backticks. -/
def stripEdgeBackticks (s : String) : String :=
  String.mk (((s.data.dropWhile (fun c => c = backtick)).reverse.dropWhile
    (fun c => c = backtick)).reverse)

/-- The fence-stripping cleanup of `getAIResponse` (source lines 560-587):
trim the reply (an empty reply becomes `"{}"`), remove a leading
language-tagged or bare triple-backtick fence line and its matching
closing line, then strip residual edge backticks and trim again.  `none`
models the `TypeError` thrown — and caught by the outer handler, which
returns `null` — when the reply is the fence opener with nothing after it
(`lines[lines.length - 1]` on an empty array). -/
def cleanResponse (raw : String) : Option String :=
  let res0 := jsTrim raw
  let res := if res0 = "" then "{}" else res0
  let afterFence : Option String :=
    if jsStartsWith res "```json" then
      let lines := (linesOf res).drop 1
      match lines.getLast? with
      | none => none
      | some last =>
        let lines2 := if jsTrim last = "```" then lines.dropLast else lines
        some (jsTrim (joinLines lines2))
    else if jsStartsWith res "```" then
      let lines := (linesOf res).drop 1
      match lines.getLast? with
      | none => none
      | some last =>
        let lines2 := if jsTrim last = "```" then lines.dropLast else lines
        some (jsTrim (joinLines lines2))
    else some res
  afterFence.map (fun s => jsTrim (stripEdgeBackticks s))

/-- `getAIResponse` after the network call (source lines 560-599), with the
external `JSON.parse` passed in as `decode`: clean the reply, decode it and
return `parsed.reviews || parsed`; a decode failure yields `none` (the
source's `null`, caught by the inner handler). -/
def getAIResponse (decode : String → Option JsValue) (raw : String) :
    Option JsValue :=
  match cleanResponse raw with
  | none => none
  | some cleaned =>
    match decode cleaned with
    | none => none
    | some parsed => some (extractReviews parsed)

/-- One review item of the expected reply shape (source lines 533-536). -/
structure AIReview where
  lineNumber : String
  reviewComment : String
deriving DecidableEq

/-- The content field of a change record (`c.content`). -/
def contentOf : Change → String
  | .add _ s => s
  | .del _ s => s
  | .normal _ _ s => s

/-- The `${c.ln ? c.ln : c.ln2}` interpolation of `createPrompt` (source
line 527): `ln` when present and nonzero (JS truthiness), else `ln2`
(`undefined` for add/del records, rendered as the string "undefined"). -/
def changeLineLabel : Change → String
  | .add ln _ => if ln ≠ 0 then toString ln else "undefined"
  | .del ln _ => if ln ≠ 0 then toString ln else "undefined"
  | .normal _ ln2 _ => toString ln2

/-- `createPrompt` (source lines 501-531). -/
def createPrompt (file : ParsedFile) (chunk : DiffChunk)
    (prDetails : PRDetails) : String :=
  "Your task is to review pull requests. Instructions:\n- Provide the response in following JSON format:  \x7b\"reviews\": [\x7b\"lineNumber\":  <line_number>, \"reviewComment\": \"<review comment>\"\x7d]\x7d\n- Do not give positive comments or compliments.\n- Provide comments and suggestions ONLY if there is something to improve, otherwise \"reviews\" should be an empty array.\n- Write the comment in GitHub Markdown format.\n- Use the given description only for the overall context and only comment the code.\n- IMPORTANT: NEVER suggest adding comments to the code.\n\nReview the following code diff in the file \""
    ++ (match file.to_ with | some t => t | none => "undefined")
    ++ "\" and take the pull request title and description into account when writing the response.\n  \nPull request title: "
    ++ prDetails.title
    ++ "\nPull request description:\n\n---\n"
    ++ prDetails.description
    ++ "\n---\n\nGit diff to review:\n\n```diff\n"
    ++ chunk.content ++ "\n"
    ++ joinLines (chunk.changes.map
        (fun c => changeLineLabel c ++ " " ++ contentOf c))
    ++ "\n```\n"

/-- `createComment` (source lines 602-620); `Number(lineNumber)` — JS
numeric-string conversion — is external and passed in as `jsNumber`.  A
file with a falsy `to` (`undefined` or the empty string) yields no
comments. -/
def createComment (jsNumber : String → Int) (file : ParsedFile)
    (aiResponses : List AIReview) : List ReviewComment :=
  aiResponses.flatMap (fun aiResponse =>
    match file.to_ with
    | none => []
    | some t =>
      if t = "" then []
      else [{ body := aiResponse.reviewComment, path := t,
              line := jsNumber aiResponse.lineNumber }])

/-- `analyzeCode` (source lines 479-499), with the per-prompt model call
(network plus `getAIResponse`) passed in as `ai`: files whose new path is
`/dev/null` (deleted files) are skipped; a `null` reply contributes no
comments for that unit and the loop continues; otherwise `createComment`'s
results are appended. -/
def analyzeCode (jsNumber : String → Int)
    (ai : String → Option (List AIReview)) (parsedDiff : List ParsedFile)
    (prDetails : PRDetails) : List ReviewComment :=
  parsedDiff.foldl (fun comments file =>
    if file.to_ == some "/dev/null" then comments
    else
      file.chunks.foldl (fun comments chunk =>
        match ai (createPrompt file chunk prDetails) with
        | some aiResponse => comments ++ createComment jsNumber file aiResponse
        | none => comments) comments) []

/-- `analyzeCode` instrumented with the list of prompts it sends to the
model: the same fold, also collecting every analysis call made. -/
def analyzeCodeCalls (jsNumber : String → Int)
    (ai : String → Option (List AIReview)) (parsedDiff : List ParsedFile)
    (prDetails : PRDetails) : List ReviewComment × List String :=
  parsedDiff.foldl (fun acc file =>
    if file.to_ == some "/dev/null" then acc
    else
      file.chunks.foldl (fun acc chunk =>
        match ai (createPrompt file chunk prDetails) with
        | some aiResponse =>
          (acc.1 ++ createComment jsNumber file aiResponse,
           acc.2 ++ [createPrompt file chunk prDetails])
        | none => (acc.1, acc.2 ++ [createPrompt file chunk prDetails])) acc)
    ([], [])

/-! ## Submission batcher (source lines 666-735) -/

/-- The outcome of one `octokit.pulls.createReview` call, supplied by the
environment per batch index: success, or an exception whose message may
signal rate limiting. -/
inductive SubmitOutcome where
  | ok
  | err (rateLimited : Bool)
deriving DecidableEq

/-- One observable action of the submission loop: an attempted batch
submission, or a `setTimeout` wait of the given milliseconds. -/
inductive SubmitAction where
  | submit (batchNumber : Nat) (batch : List ReviewComment)
  | wait (ms : Nat)
deriving DecidableEq

/-- The batch loop of `postReviewComments` (source lines 693-727),
production path: slices of 5 comments; a successful batch adds its length
to `successCount` and, when comments remain, waits 3000 ms; a failed batch
adds nothing, waits 10000 ms when the failure signals rate limiting, and
the loop continues with the next batch either way.  Returns the success
count and the action trace; `fuel` bounds the recursion and
`comments.length` is adequate. -/
def postBatchesGo (submit : Nat → SubmitOutcome) :
    Nat → Nat → List ReviewComment → Nat × List SubmitAction
  | _, _, [] => (0, [])
  | 0, _, _ :: _ => (0, [])
  | fuel + 1, b, comments@(_ :: _) =>
    let batchComments := comments.take 5
    let rest := comments.drop 5
    match submit b with
    | .ok =>
      let tail := postBatchesGo submit fuel (b + 1) rest
      (batchComments.length + tail.1,
       SubmitAction.submit b batchComments ::
         ((if rest.length ≠ 0 then [SubmitAction.wait 3000] else [])
           ++ tail.2))
    | .err rateLimited =>
      let tail := postBatchesGo submit fuel (b + 1) rest
      (tail.1,
       SubmitAction.submit b batchComments ::
         ((if rateLimited then [SubmitAction.wait 10000] else []) ++ tail.2))

/-- `postReviewComments`'s submission loop over the whole validated list. -/
def postReviewComments (submit : Nat → SubmitOutcome)
    (comments : List ReviewComment) : Nat × List SubmitAction :=
  postBatchesGo submit comments.length 0 comments

/-- Fixed-size slices of a list (the `comments.slice(i, i + batchSize)`
windows); `fuel` bounds the recursion and `l.length` is adequate. -/
def sliceGo (n : Nat) : Nat → List α → List (List α)
  | _, [] => []
  | 0, _ :: _ => []
  | fuel + 1, l@(_ :: _) => l.take n :: sliceGo n fuel (l.drop n)

/-- All fixed-size slices of a list. -/
def slices (n : Nat) (l : List α) : List (List α) := sliceGo n l.length l

/-- Specification device for C9: the action trace the loop should produce
on the indexed batch list — each batch attempted exactly once in order,
a success followed by the 3000 ms inter-batch wait when batches remain, a
rate-limited failure followed by the 10000 ms cooldown, and the loop
continuing in every case. -/
def expectedActions (submit : Nat → SubmitOutcome) :
    List (Nat × List ReviewComment) → List SubmitAction
  | [] => []
  | (b, batch) :: rest =>
    SubmitAction.submit b batch ::
      ((match submit b with
        | .ok => if rest.length ≠ 0 then [SubmitAction.wait 3000] else []
        | .err rateLimited =>
          if rateLimited then [SubmitAction.wait 10000] else [])
        ++ expectedActions submit rest)

/-- Specification device for C9: the success count is the total size of
the successfully submitted batches. -/
def expectedCount (submit : Nat → SubmitOutcome) :
    List (Nat × List ReviewComment) → Nat
  | [] => 0
  | (b, batch) :: rest =>
    (if submit b = SubmitOutcome.ok then batch.length else 0)
      + expectedCount submit rest

/-- The `progress.currentBatch = batchNumber` update of source line 367. -/
def bumpBatch (batchNumber : Nat) (p : ReviewProgress) : ReviewProgress :=
  { p with currentBatch := batchNumber }

/-- The per-snapshot part of the session invariant: the processed count
never exceeds the declared total, and a completed session has processed at
least the total. -/
def snapshotOk (q : ReviewProgress) : Prop :=
  q.processedFiles.length ≤ q.totalFiles ∧
    (q.completed = true → q.totalFiles ≤ q.processedFiles.length)

/-- One checkpoint does not shrink the processed-file count. -/
def lenLe (a b : ReviewProgress) : Prop :=
  a.processedFiles.length ≤ b.processedFiles.length

/-- A checkpoint trace whose processed-file counts never decrease. -/
def traceMono (l : List ReviewProgress) : Prop := List.Chain' lenLe l

/-! ### String and concatenation helper lemmas -/

theorem mk_append (a b : List Char) : String.mk a ++ String.mk b = String.mk (a ++ b) :=
  rfl

theorem mk_data (s : String) : String.mk s.data = s := by
  cases s; rfl

theorem mk_eq_empty_iff (l : List Char) : String.mk l = "" ↔ l = [] := by
  constructor
  · intro h; have := congrArg String.data h; simpa using this
  · intro h; subst h; rfl

theorem str_append_eq_empty {a b : String} (h : a ++ b = "") :
    a = "" ∧ b = "" := by
  have hd := congrArg String.data h
  simp [String.data_append] at hd
  cases a with
  | mk la =>
    cases b with
    | mk lb =>
      simp at hd
      exact ⟨(mk_eq_empty_iff la).mpr hd.1, (mk_eq_empty_iff lb).mpr hd.2⟩

theorem concatStrings_append (l₁ l₂ : List String) :
    concatStrings (l₁ ++ l₂) = concatStrings l₁ ++ concatStrings l₂ := by
  induction l₁ with
  | nil => simp [concatStrings, String.empty_append]
  | cons s rest ih => simp [concatStrings, ih, String.append_assoc]

theorem concatStrings_map_mk (l : List (List Char)) :
    concatStrings (l.map String.mk) = String.mk l.flatten := by
  induction l with
  | nil => rfl
  | cons x rest ih => simp [concatStrings, ih, mk_append]

theorem concatStrings_filter_ne (l : List String) :
    concatStrings (l.filter (fun s => s != "")) = concatStrings l := by
  induction l with
  | nil => rfl
  | cons s rest ih =>
    by_cases hs : s = ""
    · subst hs
      simpa [concatStrings, String.empty_append] using ih
    · simp [concatStrings, hs, ih]

theorem concatStrings_pairUp : ∀ l : List String,
    concatStrings (pairUp l) = concatStrings l
  | [] => rfl
  | [a] => rfl
  | a :: b :: rest => by
    simp [pairUp, concatStrings, concatStrings_pairUp rest, String.append_assoc]

theorem concatStrings_eq_empty {l : List String}
    (hne : ∀ s ∈ l, s ≠ "") (h : concatStrings l = "") : l = [] := by
  cases l with
  | nil => rfl
  | cons s rest =>
    exact absurd (str_append_eq_empty h).1 (hne s (by simp))

theorem pairUp_ne_empty : ∀ l : List String, (∀ s ∈ l, s ≠ "") →
    ∀ t ∈ pairUp l, t ≠ ""
  | [], _, t, ht => by simp [pairUp] at ht
  | [a], h, t, ht => by
    simp [pairUp] at ht
    subst ht; exact h _ (by simp)
  | a :: b :: rest, h, t, ht => by
    simp only [pairUp, List.mem_cons] at ht
    rcases ht with ht | ht
    · subst ht
      intro hab
      exact h a (by simp) (str_append_eq_empty hab).1
    · exact pairUp_ne_empty rest (fun s hs => h s (by simp [hs])) t ht

theorem hunkSplitFiltered_ne_empty (patch : String) :
    ∀ s ∈ hunkSplitFiltered patch, s ≠ "" := by
  intro s hs
  unfold hunkSplitFiltered at hs
  have := (List.mem_filter.mp hs).2
  simpa using this

/-! ### The regex-split scanner -/

theorem scanGo_flatten : ∀ (cs accRev : List Char) (inMatch : Bool)
    (out : List (Bool × List Char)),
    ((scanGo cs accRev inMatch out).map Prod.snd).flatten
      = (out.map Prod.snd).flatten ++ accRev.reverse ++ cs := by
  intro cs
  induction cs with
  | nil => intro accRev inMatch out; simp [scanGo]
  | cons c cs ih =>
    intro accRev inMatch out
    by_cases hin : inMatch = true
    · subst hin
      by_cases hc : c = '\n'
      · simp [scanGo, hc, ih, List.reverse_cons]
      · simp [scanGo, hc, ih, List.reverse_cons]
    · have hin' : inMatch = false := by simpa using hin
      subst hin'
      by_cases hh : isHunkHeaderStart (c :: cs) = true
      · simp [scanGo, hh, ih, List.reverse_cons]
      · simp [scanGo, hh, ih, List.reverse_cons]

theorem scanGo_numTrue_mono : ∀ (cs accRev : List Char) (inMatch : Bool)
    (out : List (Bool × List Char)),
    (out.filter (fun p => p.1)).length
      ≤ ((scanGo cs accRev inMatch out).filter (fun p => p.1)).length := by
  intro cs
  induction cs with
  | nil =>
    intro accRev inMatch out
    simp [scanGo, List.filter_append]
  | cons c cs ih =>
    intro accRev inMatch out
    by_cases hin : inMatch = true
    · subst hin
      by_cases hc : c = '\n'
      · simp only [scanGo, hc, if_true]
        calc (out.filter (fun p => p.1)).length
            ≤ ((out ++ [(true, accRev.reverse)]).filter (fun p => p.1)).length := by
              simp [List.filter_append]
          _ ≤ _ := ih _ _ _
      · simpa [scanGo, hc] using ih (c :: accRev) true out
    · have hin' : inMatch = false := by simpa using hin
      subst hin'
      by_cases hh : isHunkHeaderStart (c :: cs) = true
      · simp only [scanGo, hh, if_true, Bool.false_eq_true, if_false]
        calc (out.filter (fun p => p.1)).length
            ≤ ((out ++ [(false, accRev.reverse)]).filter (fun p => p.1)).length := by
              simp [List.filter_append]
          _ ≤ _ := ih _ _ _
      · simpa [scanGo, hh] using ih (c :: accRev) false out

theorem scanGo_inMatch_adds : ∀ (cs accRev : List Char)
    (out : List (Bool × List Char)),
    (out.filter (fun p => p.1)).length + 1
      ≤ ((scanGo cs accRev true out).filter (fun p => p.1)).length := by
  intro cs
  induction cs with
  | nil =>
    intro accRev out
    simp [scanGo, List.filter_append]
  | cons c cs ih =>
    intro accRev out
    by_cases hc : c = '\n'
    · simp only [scanGo, hc, if_true]
      calc (out.filter (fun p => p.1)).length + 1
          = ((out ++ [(true, accRev.reverse)]).filter (fun p => p.1)).length := by
            simp [List.filter_append]
        _ ≤ _ := scanGo_numTrue_mono cs ['\n'] false _
    · simpa [scanGo, hc] using ih (c :: accRev) out

theorem scanGo_no_match : ∀ (cs accRev : List Char)
    (out : List (Bool × List Char)),
    ((scanGo cs accRev false out).filter (fun p => p.1)).length
        = (out.filter (fun p => p.1)).length →
    scanGo cs accRev false out = out ++ [(false, accRev.reverse ++ cs)] := by
  intro cs
  induction cs with
  | nil => intro accRev out _; simp [scanGo]
  | cons c cs ih =>
    intro accRev out h
    by_cases hh : isHunkHeaderStart (c :: cs) = true
    · exfalso
      have hge := scanGo_inMatch_adds cs [c] (out ++ [(false, accRev.reverse)])
      have : ((scanGo (c :: cs) accRev false out).filter (fun p => p.1)).length
          ≥ (out.filter (fun p => p.1)).length + 1 := by
        simpa [scanGo, hh, List.filter_append] using hge
      omega
    · have h' : ((scanGo cs (c :: accRev) false out).filter (fun p => p.1)).length
          = (out.filter (fun p => p.1)).length := by
        simpa [scanGo, hh] using h
      have := ih (c :: accRev) out h'
      simpa [scanGo, hh, List.reverse_cons, List.append_assoc] using this

/-! ### The greedy hunk packer -/

theorem packGroupsGo_nil (m : Nat) (current : List String) (lines : Nat)
    (chunks : List (List String)) :
    packGroupsGo m [] current lines chunks
      = if concatStrings current ≠ "" then chunks ++ [current] else chunks :=
  rfl

theorem packGroupsGo_cons (m : Nat) (hunk : String) (rest current : List String)
    (lines : Nat) (chunks : List (List String)) :
    packGroupsGo m (hunk :: rest) current lines chunks
      = if lines + countLines hunk > m ∧ concatStrings current ≠ "" then
          packGroupsGo m rest [hunk] (countLines hunk) (chunks ++ [current])
        else
          packGroupsGo m rest (current ++ [hunk]) (lines + countLines hunk) chunks :=
  rfl

theorem packGroupsGo_flatten (m : Nat) : ∀ (rest current : List String)
    (lines : Nat) (chunks : List (List String)),
    (∀ s ∈ current, s ≠ "") → (∀ s ∈ rest, s ≠ "") →
    (packGroupsGo m rest current lines chunks).flatten
      = chunks.flatten ++ current ++ rest
  | [], current, lines, chunks => by
    intro hcur _
    by_cases hc : concatStrings current ≠ ""
    · rw [packGroupsGo_nil, if_pos hc]
      simp
    · rw [packGroupsGo_nil, if_neg hc]
      have : current = [] := concatStrings_eq_empty hcur (by simpa using hc)
      simp [this]
  | hunk :: rest, current, lines, chunks => by
    intro hcur hrest
    have hhunk : hunk ≠ "" := hrest hunk (by simp)
    have hrest' : ∀ s ∈ rest, s ≠ "" := fun s hs => hrest s (by simp [hs])
    by_cases hg : lines + countLines hunk > m ∧ concatStrings current ≠ ""
    · rw [packGroupsGo_cons, if_pos hg]
      rw [packGroupsGo_flatten m rest [hunk] (countLines hunk)
        (chunks ++ [current]) (by simpa using hhunk) hrest']
      simp
    · rw [packGroupsGo_cons, if_neg hg]
      rw [packGroupsGo_flatten m rest (current ++ [hunk])
        (lines + countLines hunk) chunks
        (by intro s hs
            rcases List.mem_append.mp hs with h | h
            · exact hcur s h
            · simp at h; subst h; exact hhunk) hrest']
      simp

theorem packGroupsGo_bound (m : Nat) : ∀ (rest current : List String)
    (lines : Nat) (chunks : List (List String)),
    (∀ s ∈ current, s ≠ "") → (∀ s ∈ rest, s ≠ "") →
    lines = (current.map countLines).sum →
    (current = [] ∨ current.length = 1 ∨ (current.map countLines).sum ≤ m) →
    (∀ g ∈ chunks, g ≠ [] ∧ ((g.map countLines).sum ≤ m ∨ g.length = 1)) →
    ∀ g ∈ packGroupsGo m rest current lines chunks,
      g ≠ [] ∧ ((g.map countLines).sum ≤ m ∨ g.length = 1)
  | [], current, lines, chunks => by
    intro hcur _ _ hinv hchunks g hg
    by_cases hc : concatStrings current ≠ ""
    · rw [packGroupsGo_nil, if_pos hc] at hg
      rcases List.mem_append.mp hg with h | h
      · exact hchunks g h
      · simp at h; subst h
        have hne : g ≠ [] := by
          intro h0; subst h0; exact hc rfl
        refine ⟨hne, ?_⟩
        rcases hinv with h1 | h1 | h1
        · exact absurd h1 hne
        · exact Or.inr h1
        · exact Or.inl h1
    · rw [packGroupsGo_nil, if_neg hc] at hg
      exact hchunks g hg
  | hunk :: rest, current, lines, chunks => by
    intro hcur hrest hlines hinv hchunks g hg
    have hhunk : hunk ≠ "" := hrest hunk (by simp)
    have hrest' : ∀ s ∈ rest, s ≠ "" := fun s hs => hrest s (by simp [hs])
    by_cases hgd : lines + countLines hunk > m ∧ concatStrings current ≠ ""
    · rw [packGroupsGo_cons, if_pos hgd] at hg
      refine packGroupsGo_bound m rest [hunk] (countLines hunk) (chunks ++ [current])
        (by simpa using hhunk) hrest' (by simp) (by simp) ?_ g hg
      intro g' hg'
      rcases List.mem_append.mp hg' with h | h
      · exact hchunks g' h
      · simp at h; subst h
        have hne : g' ≠ [] := by
          intro h0; subst h0; exact hgd.2 rfl
        refine ⟨hne, ?_⟩
        rcases hinv with h1 | h1 | h1
        · exact absurd h1 hne
        · exact Or.inr h1
        · exact Or.inl h1
    · rw [packGroupsGo_cons, if_neg hgd] at hg
      refine packGroupsGo_bound m rest (current ++ [hunk])
        (lines + countLines hunk) chunks
        (by intro s hs
            rcases List.mem_append.mp hs with h | h
            · exact hcur s h
            · simp at h; subst h; exact hhunk) hrest' (by simp [hlines]) ?_ hchunks g hg
      rcases not_and_or.mp hgd with h1 | h1
      · right; right
        have hle : lines + countLines hunk ≤ m := Nat.not_lt.mp h1
        rw [hlines] at hle
        simpa using hle
      · have hcure : current = [] :=
          concatStrings_eq_empty hcur (by simpa using h1)
        right; left
        simp [hcure]

/-! ### Line splitting -/

theorem lineSplit_length : ∀ cs : List Char,
    (lineSplit cs).length = cs.count '\n' + 1 := by
  intro cs
  induction cs with
  | nil => simp [lineSplit]
  | cons c cs ih =>
    by_cases hc : c = '\n'
    · simp [lineSplit, hc, ih, List.count_cons]
    · cases hls : lineSplit cs with
      | nil => rw [hls] at ih; simp at ih
      | cons l ls =>
        rw [hls] at ih
        simp only [lineSplit, hc, if_false, hls]
        simp only [List.length_cons] at ih ⊢
        have hcount : List.count '\n' (c :: cs) = List.count '\n' cs := by
          simp [List.count_cons, hc]
        omega

theorem linesOf_length (s : String) : (linesOf s).length = countLines s := by
  unfold linesOf countLines
  simp [lineSplit_length]

theorem splitByLinesGo_cons (filename : String) (total fuel i : Nat)
    (l : String) (ls : List String) :
    splitByLinesGo filename total (fuel + 1) i (l :: ls)
      = (fileHeader filename ++ "@@ Chunk " ++ toString (i / 5000 + 1) ++ "/"
          ++ toString ((total + 4999) / 5000) ++ " @@\n"
          ++ joinLines ((l :: ls).take 5000))
        :: splitByLinesGo filename total fuel (i + 5000) ((l :: ls).drop 5000) :=
  rfl

theorem splitByLinesGo_eq_range (filename : String) (total : Nat) :
    ∀ (fuel : Nat) (lines : List String) (i : Nat), lines.length ≤ fuel →
    splitByLinesGo filename total fuel i lines
      = (List.range ((lines.length + 4999) / 5000)).map (fun k =>
          fileHeader filename ++ "@@ Chunk " ++ toString (i / 5000 + k + 1) ++ "/"
            ++ toString ((total + 4999) / 5000) ++ " @@\n"
            ++ joinLines ((lines.drop (5000 * k)).take 5000)) := by
  intro fuel
  induction fuel with
  | zero =>
    intro lines i hle
    have : lines = [] := List.length_eq_zero.mp (Nat.le_zero.mp hle)
    subst this
    simp [splitByLinesGo]
  | succ fuel ih =>
    intro lines i hle
    cases lines with
    | nil => simp [splitByLinesGo]
    | cons l ls =>
      have hlen : (l :: ls).length = ls.length + 1 := rfl
      have hceil : ((l :: ls).length + 4999) / 5000
          = (((l :: ls).drop 5000).length + 4999) / 5000 + 1 := by
        rw [List.length_drop]
        rcases le_or_lt (l :: ls).length 5000 with h | h
        · have h1 : ((l :: ls).length + 4999) / 5000 = 1 := by
            apply Nat.div_eq_of_lt_le
            · simpa using by omega
            · omega
          have h2 : ((l :: ls).length - 5000 + 4999) / 5000 = 0 :=
            Nat.div_eq_of_lt (by omega)
          omega
        · have : (l :: ls).length + 4999
              = ((l :: ls).length - 5000 + 4999) + 5000 := by omega
          rw [this, Nat.add_div_right _ (by norm_num)]
      rw [splitByLinesGo_cons]
      rw [ih ((l :: ls).drop 5000) (i + 5000)
        (by rw [List.length_drop]; omega)]
      rw [hceil, List.range_succ_eq_map]
      simp only [List.map_cons, List.map_map]
      refine congrArg₂ List.cons ?_ ?_
      · simp only [Nat.mul_zero, List.drop_zero, Nat.add_zero]
      · apply List.map_congr_left
        intro k hk
        simp only [Function.comp_apply]
        have hdiv : (i + 5000) / 5000 = i / 5000 + 1 :=
          Nat.add_div_right i (by norm_num)
        have hidx : (i + 5000) / 5000 + k + 1 = i / 5000 + Nat.succ k + 1 := by
          rw [hdiv]; omega
        have hdrop : ((l :: ls).drop 5000).drop (5000 * k)
            = (l :: ls).drop (5000 * Nat.succ k) := by
          rw [List.drop_drop]
          congr 1
          omega
        rw [hidx, hdrop]

/-- A patch with no hunk-header match splits into a single piece (so the
filtered piece list has at most one element and the fallback is taken). -/
theorem no_boundary_single_piece (patch : String)
    (h : numHunkBoundaries patch = 0) :
    (hunkSplitFiltered patch).length ≤ 1 := by
  unfold numHunkBoundaries jsSplitHunkPieces at h
  rw [List.filter_map, List.length_map] at h
  have h0 : ((scanGo patch.data [] false []).filter (fun p => p.1)).length
      = (([] : List (Bool × List Char)).filter (fun p => p.1)).length := by
    simpa using h
  have hscan := scanGo_no_match patch.data [] [] h0
  unfold hunkSplitFiltered jsSplitHunkPieces
  rw [hscan]
  by_cases hp : String.mk patch.data = ""
  · simp [hp]
  · simp [hp]

/-- Concrete instantiation of `submitted_comment_has_matching_record`:
a one-comment list over a one-file diff whose single addition record is on
the comment's line. -/
theorem submitted_comment_has_matching_record_witness :
    (⟨"use let", "a.ts", (2 : Int)⟩ : ReviewComment) ∈
        [(⟨"use let", "a.ts", (2 : Int)⟩ : ReviewComment)] ∧
      ∃ file ∈ [(⟨some "a.ts", some "a.ts",
          [⟨"@@ -1,1 +1,2 @@", [Change.add 2 "+x"]⟩]⟩ : ParsedFile)],
        (file.to_ = some "a.ts" ∨ file.from_ = some "a.ts") ∧
        ∃ chunk ∈ file.chunks, ∃ ch ∈ chunk.changes,
          changeMatchesLine (2 : Int) ch = true :=
  submitted_comment_has_matching_record
    [⟨"use let", "a.ts", (2 : Int)⟩]
    [⟨some "a.ts", some "a.ts", [⟨"@@ -1,1 +1,2 @@", [Change.add 2 "+x"]⟩]⟩]
    ⟨"use let", "a.ts", (2 : Int)⟩ (by decide)

theorem splitLargeFilePatch_def (filename patch : String) :
    splitLargeFilePatch filename patch
      = if (hunkSplitFiltered patch).length ≤ 1 then
          splitByLines filename patch
        else
          (hunkGroupsOf patch).map
            (fun group => fileHeader filename ++ concatStrings group) :=
  rfl

/-- C2: on the hunk path (the split finds more than one nonempty piece),
`splitLargeFilePatch` greedily packs consecutive whole hunks into chunks:
each chunk is the synthetic file header followed by the concatenation of a
group of consecutive whole hunks (no hunk is split across two chunks and
the groups, flattened in order, are exactly the reconstructed hunks),
concatenating the chunks' hunk bodies in order reproduces the patch — the
original hunks' content — exactly, and no chunk packs more than 5000 hunk
lines (the ceiling the code enforces, counting each hunk as
`hunk.split('\n').length`) unless the chunk is a single hunk that alone
exceeds the ceiling. -/
theorem splitLargeFilePatch_packs_whole_hunks (filename patch : String)
    (h : 1 < (hunkSplitFiltered patch).length) :
    splitLargeFilePatch filename patch
        = (hunkGroupsOf patch).map
            (fun group => fileHeader filename ++ concatStrings group) ∧
    (hunkGroupsOf patch).flatten = properHunksOf patch ∧
    concatStrings (properHunksOf patch) = patch ∧
    ∀ group ∈ hunkGroupsOf patch,
      group ≠ [] ∧ ((group.map countLines).sum ≤ 5000 ∨ group.length = 1) := by
  have hne : ∀ s ∈ properHunksOf patch, s ≠ "" :=
    pairUp_ne_empty _ (hunkSplitFiltered_ne_empty patch)
  refine ⟨?_, ?_, ?_, ?_⟩
  · rw [splitLargeFilePatch_def, if_neg (by omega)]
  · unfold hunkGroupsOf
    have := packGroupsGo_flatten 5000 (properHunksOf patch) [] 0 []
      (by simp) hne
    simpa using this
  · unfold properHunksOf
    rw [concatStrings_pairUp]
    unfold hunkSplitFiltered
    rw [concatStrings_filter_ne]
    unfold jsSplitHunkPieces
    have hcomp : ((scanGo patch.data [] false []).map
          (fun p => (p.1, String.mk p.2))).map Prod.snd
        = ((scanGo patch.data [] false []).map Prod.snd).map String.mk := by
      simp [List.map_map]
    rw [hcomp, concatStrings_map_mk, scanGo_flatten]
    simpa using mk_data patch
  · unfold hunkGroupsOf
    exact packGroupsGo_bound 5000 (properHunksOf patch) [] 0 []
      (by simp) hne (by simp) (by simp) (by simp)

/-- Concrete instantiation of `splitLargeFilePatch_packs_whole_hunks` on a
two-hunk patch. -/
theorem splitLargeFilePatch_packs_whole_hunks_witness :
    splitLargeFilePatch "f" "@@ -1,2 +1,2 @@\n a\n@@ -5,1 +5,1 @@\n b"
        = (hunkGroupsOf "@@ -1,2 +1,2 @@\n a\n@@ -5,1 +5,1 @@\n b").map
            (fun group => fileHeader "f" ++ concatStrings group) ∧
    (hunkGroupsOf "@@ -1,2 +1,2 @@\n a\n@@ -5,1 +5,1 @@\n b").flatten
        = properHunksOf "@@ -1,2 +1,2 @@\n a\n@@ -5,1 +5,1 @@\n b" ∧
    concatStrings (properHunksOf "@@ -1,2 +1,2 @@\n a\n@@ -5,1 +5,1 @@\n b")
        = "@@ -1,2 +1,2 @@\n a\n@@ -5,1 +5,1 @@\n b" ∧
    ∀ group ∈ hunkGroupsOf "@@ -1,2 +1,2 @@\n a\n@@ -5,1 +5,1 @@\n b",
      group ≠ [] ∧ ((group.map countLines).sum ≤ 5000 ∨ group.length = 1) :=
  splitLargeFilePatch_packs_whole_hunks "f"
    "@@ -1,2 +1,2 @@\n a\n@@ -5,1 +5,1 @@\n b" (by decide)

/-- C3 (amended): when the hunk-header split yields at most one nonempty
piece — which is in particular the case whenever the patch contains no
hunk boundary at all — `splitLargeFilePatch` falls back to fixed-window
line splitting via `splitByLines`, producing exactly
`ceil(lineCount / 5000)` chunks, the `k`-th being the synthetic file
header, a `@@ Chunk <k+1>/<n> @@` chunk-index marker, and the `k`-th
5000-line window. -/
theorem splitLargeFilePatch_fallback_fixed_windows (filename patch : String) :
    (numHunkBoundaries patch = 0 → (hunkSplitFiltered patch).length ≤ 1) ∧
    ((hunkSplitFiltered patch).length ≤ 1 →
      splitLargeFilePatch filename patch = splitByLines filename patch ∧
      splitByLines filename patch
        = (List.range ((countLines patch + 4999) / 5000)).map (fun k =>
            fileHeader filename ++ "@@ Chunk " ++ toString (k + 1) ++ "/"
              ++ toString ((countLines patch + 4999) / 5000) ++ " @@\n"
              ++ joinLines (((linesOf patch).drop (5000 * k)).take 5000)) ∧
      (splitByLines filename patch).length = (countLines patch + 4999) / 5000) := by
  have hchar : splitByLines filename patch
      = (List.range ((countLines patch + 4999) / 5000)).map (fun k =>
          fileHeader filename ++ "@@ Chunk " ++ toString (k + 1) ++ "/"
            ++ toString ((countLines patch + 4999) / 5000) ++ " @@\n"
            ++ joinLines (((linesOf patch).drop (5000 * k)).take 5000)) := by
    unfold splitByLines
    rw [splitByLinesGo_eq_range filename (linesOf patch).length
      (linesOf patch).length (linesOf patch) 0 le_rfl]
    rw [linesOf_length]
    simp only [Nat.zero_div, Nat.zero_add]
  refine ⟨no_boundary_single_piece patch, fun h => ⟨?_, hchar, ?_⟩⟩
  · rw [splitLargeFilePatch_def, if_pos h]
  · rw [hchar, List.length_map, List.length_range]

/-- Concrete instantiation of `splitLargeFilePatch_fallback_fixed_windows`
on a boundary-free two-line patch. -/
theorem splitLargeFilePatch_fallback_fixed_windows_witness :
    numHunkBoundaries "hello\nworld" = 0 ∧
    (hunkSplitFiltered "hello\nworld").length ≤ 1 ∧
    splitLargeFilePatch "f" "hello\nworld" = splitByLines "f" "hello\nworld" ∧
    (splitByLines "f" "hello\nworld").length
      = (countLines "hello\nworld" + 4999) / 5000 :=
  ⟨by decide,
   (splitLargeFilePatch_fallback_fixed_windows "f" "hello\nworld").1 (by decide),
   ((splitLargeFilePatch_fallback_fixed_windows "f" "hello\nworld").2 (by decide)).1,
   ((splitLargeFilePatch_fallback_fixed_windows "f" "hello\nworld").2 (by decide)).2.2⟩

/-- C3 counterexample: the patch `"x\n@@ -1,1 +1,1 @@"` contains exactly
one hunk boundary, yet `splitLargeFilePatch` does not fall back to
`splitByLines` for it: the split yields two nonempty pieces (the preamble
and the match), so the hunk path is taken and the produced chunk carries
no chunk-index marker. -/
theorem one_boundary_not_fallback :
    numHunkBoundaries "x\n@@ -1,1 +1,1 @@" = 1 ∧
    splitLargeFilePatch "f" "x\n@@ -1,1 +1,1 @@"
      ≠ splitByLines "f" "x\n@@ -1,1 +1,1 @@" := by
  decide

/-! ### Session and checkpoint lemmas -/

theorem processBatchItems_progress : ∀ (batch : List WorkItem)
    (p : ReviewProgress) (tr : List ReviewProgress),
    (processBatchItems batch p tr).2.1
      = { p with processedFiles := p.processedFiles ++ batch.map (·.filename) }
  | [], p, tr => by simp [processBatchItems]
  | f :: rest, p, tr => by
    simp only [processBatchItems]
    rw [processBatchItems_progress rest _ _]
    cases p
    simp

theorem processBatchItems_trace_lb : ∀ (batch : List WorkItem)
    (p : ReviewProgress) (tr : List ReviewProgress) (c : Nat),
    (∀ q ∈ tr, c ≤ q.processedFiles.length) →
    c ≤ p.processedFiles.length →
    ∀ q ∈ (processBatchItems batch p tr).2.2, c ≤ q.processedFiles.length
  | [], p, tr, c => by
    intro htr _ q hq
    exact htr q hq
  | f :: rest, p, tr, c => by
    intro htr hp q hq
    simp only [processBatchItems] at hq
    refine processBatchItems_trace_lb rest _ _ c ?_ ?_ q hq
    · intro q' hq'
      rcases List.mem_append.mp hq' with h | h
      · exact htr q' h
      · simp at h; subst h
        simp only [List.length_append]
        omega
    · simp only [List.length_append]
      omega

theorem processBatchItems_trace_ok : ∀ (batch : List WorkItem)
    (p : ReviewProgress) (tr : List ReviewProgress),
    (∀ q ∈ tr, snapshotOk q) →
    p.processedFiles.length + batch.length ≤ p.totalFiles →
    p.completed = false →
    ∀ q ∈ (processBatchItems batch p tr).2.2, snapshotOk q
  | [], p, tr => by
    intro htr _ _ q hq
    exact htr q hq
  | f :: rest, p, tr => by
    intro htr hbound hcomp q hq
    simp only [processBatchItems] at hq
    refine processBatchItems_trace_ok rest _ _ ?_ ?_ ?_ q hq
    · intro q' hq'
      rcases List.mem_append.mp hq' with h | h
      · exact htr q' h
      · simp at h; subst h
        constructor
        · simp only [List.length_append, List.length_cons,
            List.length_nil] at hbound ⊢
          omega
        · intro hc
          simp only at hc
          rw [hcomp] at hc
          exact absurd hc (by simp)
    · simp only [List.length_append, List.length_cons,
        List.length_nil] at hbound ⊢
      omega
    · exact hcomp

theorem traceMono_last_le {l : List ReviewProgress} {a b : ReviewProgress}
    (h : traceMono (l ++ [a])) (hab : lenLe a b) : traceMono (l ++ [b]) := by
  unfold traceMono at h ⊢
  rw [List.chain'_append] at h ⊢
  refine ⟨h.1, List.chain'_singleton b, ?_⟩
  intro x hx y hy
  simp at hy
  subst hy
  have := h.2.2 x hx a (by simp)
  exact le_trans this hab

theorem traceMono_snoc {l : List ReviewProgress} {a b : ReviewProgress}
    (h : traceMono (l ++ [a])) (hab : lenLe a b) :
    traceMono ((l ++ [a]) ++ [b]) := by
  unfold traceMono at h ⊢
  rw [List.chain'_append]
  refine ⟨h, List.chain'_singleton b, ?_⟩
  intro x hx y hy
  simp at hy
  subst hy
  rw [List.getLast?_concat] at hx
  simp at hx
  subst hx
  exact hab

theorem processBatchItems_trace_chain : ∀ (batch : List WorkItem)
    (p : ReviewProgress) (tr : List ReviewProgress),
    traceMono (tr ++ [p]) →
    traceMono ((processBatchItems batch p tr).2.2
      ++ [(processBatchItems batch p tr).2.1])
  | [], p, tr => by
    intro h
    simpa [processBatchItems] using h
  | f :: rest, p, tr => by
    intro h
    simp only [processBatchItems]
    have hle : lenLe p { p with
        processedFiles := p.processedFiles ++ [f.filename] } := by
      simp [lenLe]
    have h1 := traceMono_last_le h hle
    have h2 := traceMono_snoc h1 (le_refl _)
    exact processBatchItems_trace_chain rest _ _ h2

theorem bumpBatch_processedFiles (bn : Nat) (p : ReviewProgress) :
    (bumpBatch bn p).processedFiles = p.processedFiles := rfl

theorem bumpBatch_totalFiles (bn : Nat) (p : ReviewProgress) :
    (bumpBatch bn p).totalFiles = p.totalFiles := rfl

theorem bumpBatch_completed (bn : Nat) (p : ReviewProgress) :
    (bumpBatch bn p).completed = p.completed := rfl

theorem runBatches_cons (fuel k : Nat) (f : WorkItem) (fs : List WorkItem)
    (p : ReviewProgress) (acc : String) (tr : List ReviewProgress) :
    runBatches (fuel + 1) k (f :: fs) p acc tr
      = runBatches fuel (k + 1) ((f :: fs).drop 10)
          (bumpBatch (p.currentBatch + k + 1)
            (processBatchItems ((f :: fs).take 10) p tr).2.1)
          (acc ++ String.intercalate "\n"
            (processBatchItems ((f :: fs).take 10) p tr).1)
          ((processBatchItems ((f :: fs).take 10) p tr).2.2
            ++ [bumpBatch (p.currentBatch + k + 1)
              (processBatchItems ((f :: fs).take 10) p tr).2.1]) :=
  rfl

theorem runBatches_progress : ∀ (fuel k : Nat) (files : List WorkItem)
    (p : ReviewProgress) (acc : String) (tr : List ReviewProgress),
    files.length ≤ fuel →
    (runBatches fuel k files p acc tr).2.1.processedFiles
        = p.processedFiles ++ files.map (·.filename) ∧
    (runBatches fuel k files p acc tr).2.1.totalFiles = p.totalFiles ∧
    (runBatches fuel k files p acc tr).2.1.completed = p.completed := by
  intro fuel
  induction fuel with
  | zero =>
    intro k files p acc tr hle
    have : files = [] := List.length_eq_zero.mp (Nat.le_zero.mp hle)
    subst this
    simp [runBatches]
  | succ fuel ih =>
    intro k files p acc tr hle
    cases files with
    | nil => simp [runBatches]
    | cons f fs =>
      rw [runBatches_cons]
      have hlen : ((f :: fs).drop 10).length ≤ fuel := by
        rw [List.length_drop]
        simp only [List.length_cons] at hle
        simp only [List.length_cons]
        omega
      obtain ⟨h1, h2, h3⟩ := ih (k + 1) ((f :: fs).drop 10) _ _ _ hlen
      refine ⟨?_, ?_, ?_⟩
      · rw [h1, bumpBatch_processedFiles, processBatchItems_progress]
        simp only [List.append_assoc]
        rw [← List.map_append, List.take_append_drop]
      · rw [h2, bumpBatch_totalFiles, processBatchItems_progress]
      · rw [h3, bumpBatch_completed, processBatchItems_progress]

theorem runBatches_output_prefix : ∀ (fuel k : Nat) (files : List WorkItem)
    (p : ReviewProgress) (acc : String) (tr : List ReviewProgress),
    ∃ rest, (runBatches fuel k files p acc tr).1 = acc ++ rest := by
  intro fuel
  induction fuel with
  | zero =>
    intro k files p acc tr
    cases files with
    | nil => exact ⟨"", by simp [runBatches, String.append_empty]⟩
    | cons f fs => exact ⟨"", by simp [runBatches, String.append_empty]⟩
  | succ fuel ih =>
    intro k files p acc tr
    cases files with
    | nil => exact ⟨"", by simp [runBatches, String.append_empty]⟩
    | cons f fs =>
      rw [runBatches_cons]
      obtain ⟨r, hr⟩ := ih (k + 1) ((f :: fs).drop 10)
        (bumpBatch (p.currentBatch + k + 1)
          (processBatchItems ((f :: fs).take 10) p tr).2.1)
        (acc ++ String.intercalate "\n"
          (processBatchItems ((f :: fs).take 10) p tr).1)
        ((processBatchItems ((f :: fs).take 10) p tr).2.2
          ++ [bumpBatch (p.currentBatch + k + 1)
            (processBatchItems ((f :: fs).take 10) p tr).2.1])
      exact ⟨String.intercalate "\n"
          (processBatchItems ((f :: fs).take 10) p tr).1 ++ r,
        by rw [hr, String.append_assoc]⟩

theorem runBatches_trace_lb : ∀ (fuel k : Nat) (files : List WorkItem)
    (p : ReviewProgress) (acc : String) (tr : List ReviewProgress) (c : Nat),
    (∀ q ∈ tr, c ≤ q.processedFiles.length) →
    c ≤ p.processedFiles.length →
    ∀ q ∈ (runBatches fuel k files p acc tr).2.2, c ≤ q.processedFiles.length := by
  intro fuel
  induction fuel with
  | zero =>
    intro k files p acc tr c htr _ q hq
    cases files with
    | nil => exact htr q hq
    | cons f fs => exact htr q hq
  | succ fuel ih =>
    intro k files p acc tr c htr hp q hq
    cases files with
    | nil => exact htr q hq
    | cons f fs =>
      rw [runBatches_cons] at hq
      have hpb := processBatchItems_trace_lb ((f :: fs).take 10) p tr c htr hp
      have hp1 : c ≤ (bumpBatch (p.currentBatch + k + 1)
          (processBatchItems ((f :: fs).take 10) p tr).2.1).processedFiles.length := by
        rw [bumpBatch_processedFiles, processBatchItems_progress]
        simp only [List.length_append]
        omega
      refine ih (k + 1) _ _ _ _ c ?_ hp1 q hq
      intro q' hq'
      rcases List.mem_append.mp hq' with h | h
      · exact hpb q' h
      · simp at h; subst h; exact hp1

theorem runBatches_trace_chain : ∀ (fuel k : Nat) (files : List WorkItem)
    (p : ReviewProgress) (acc : String) (tr : List ReviewProgress),
    files.length ≤ fuel → traceMono (tr ++ [p]) →
    traceMono ((runBatches fuel k files p acc tr).2.2
      ++ [(runBatches fuel k files p acc tr).2.1]) := by
  intro fuel
  induction fuel with
  | zero =>
    intro k files p acc tr hle h
    have : files = [] := List.length_eq_zero.mp (Nat.le_zero.mp hle)
    subst this
    simpa [runBatches] using h
  | succ fuel ih =>
    intro k files p acc tr hle h
    cases files with
    | nil => simpa [runBatches] using h
    | cons f fs =>
      rw [runBatches_cons]
      have h1 := processBatchItems_trace_chain ((f :: fs).take 10) p tr h
      have h2 := traceMono_last_le h1
        (show lenLe (processBatchItems ((f :: fs).take 10) p tr).2.1
          (bumpBatch (p.currentBatch + k + 1)
            (processBatchItems ((f :: fs).take 10) p tr).2.1) from le_refl _)
      have h3 := traceMono_snoc h2
        (show lenLe (bumpBatch (p.currentBatch + k + 1)
            (processBatchItems ((f :: fs).take 10) p tr).2.1)
          (bumpBatch (p.currentBatch + k + 1)
            (processBatchItems ((f :: fs).take 10) p tr).2.1) from le_refl _)
      refine ih (k + 1) _ _ _ _ ?_ h3
      rw [List.length_drop]
      simp only [List.length_cons] at hle
      simp only [List.length_cons]
      omega

theorem runBatches_trace_ok : ∀ (fuel k : Nat) (files : List WorkItem)
    (p : ReviewProgress) (acc : String) (tr : List ReviewProgress),
    files.length ≤ fuel →
    (∀ q ∈ tr, snapshotOk q) →
    p.processedFiles.length + files.length ≤ p.totalFiles →
    p.completed = false →
    ∀ q ∈ (runBatches fuel k files p acc tr).2.2, snapshotOk q := by
  intro fuel
  induction fuel with
  | zero =>
    intro k files p acc tr _ htr _ _ q hq
    cases files with
    | nil => exact htr q hq
    | cons f fs => exact htr q hq
  | succ fuel ih =>
    intro k files p acc tr hle htr hbound hcomp q hq
    cases files with
    | nil => exact htr q hq
    | cons f fs =>
      rw [runBatches_cons] at hq
      have htake : ((f :: fs).take 10).length ≤ (f :: fs).length := by
        rw [List.length_take]
        simp only [List.length_cons]
        omega
      have hpb := processBatchItems_trace_ok ((f :: fs).take 10) p tr htr
        (by omega) hcomp
      have hpf1 : (bumpBatch (p.currentBatch + k + 1)
            (processBatchItems ((f :: fs).take 10) p tr).2.1).processedFiles
          = p.processedFiles ++ ((f :: fs).take 10).map (·.filename) := by
        rw [bumpBatch_processedFiles, processBatchItems_progress]
      have hpt1 : (bumpBatch (p.currentBatch + k + 1)
            (processBatchItems ((f :: fs).take 10) p tr).2.1).totalFiles
          = p.totalFiles := by
        rw [bumpBatch_totalFiles, processBatchItems_progress]
      have hpc1 : (bumpBatch (p.currentBatch + k + 1)
            (processBatchItems ((f :: fs).take 10) p tr).2.1).completed
          = p.completed := by
        rw [bumpBatch_completed, processBatchItems_progress]
      have hok1 : snapshotOk (bumpBatch (p.currentBatch + k + 1)
          (processBatchItems ((f :: fs).take 10) p tr).2.1) := by
        constructor
        · rw [hpf1, hpt1]
          simp only [List.length_append, List.length_map, List.length_take]
          simp only [List.length_cons] at hbound ⊢
          omega
        · rw [hpc1, hcomp]
          intro hc
          exact absurd hc (by simp)
      refine ih (k + 1) _ _ _ _ ?_ ?_ ?_ ?_ q hq
      · rw [List.length_drop]
        simp only [List.length_cons] at hle
        simp only [List.length_cons]
        omega
      · intro q' hq'
        rcases List.mem_append.mp hq' with hmem | hmem
        · exact hpb q' hmem
        · simp at hmem; subst hmem; exact hok1
      · rw [hpf1, hpt1]
        simp only [List.length_append, List.length_map, List.length_take,
          List.length_drop]
        simp only [List.length_cons] at hbound ⊢
        omega
      · rw [hpc1, hcomp]

theorem markCompleted_processedFiles (now : String) (p : ReviewProgress) :
    (markCompleted now p).processedFiles = p.processedFiles := rfl

theorem markCompleted_totalFiles (now : String) (p : ReviewProgress) :
    (markCompleted now p).totalFiles = p.totalFiles := rfl

theorem finalizeProgress_processedFiles (now : String) (p : ReviewProgress) :
    (finalizeProgress now p).1.processedFiles = p.processedFiles := by
  unfold finalizeProgress
  by_cases h : p.totalFiles ≤ p.processedFiles.length
  · rw [if_pos h, markCompleted_processedFiles]
  · rw [if_neg h]

theorem shouldResume_true_elim {p : ReviewProgress} {pull_number : Nat}
    {repository : String}
    (h : shouldResume (some p) pull_number repository = true) :
    p.prNumber = pull_number ∧ p.repository = repository ∧
      p.completed = false := by
  unfold shouldResume at h
  simp only [Bool.and_eq_true, beq_iff_eq, Bool.not_eq_true'] at h
  exact ⟨h.1.1, h.1.2, h.2⟩

theorem length_filter_add_length_filter_not {α : Type} (l : List α)
    (p : α → Bool) :
    (l.filter p).length + (l.filter (fun a => !(p a))).length = l.length := by
  induction l with
  | nil => rfl
  | cons a l ih =>
    by_cases h : p a = true <;> simp [List.filter_cons, h] <;> omega

theorem filter_contains_length (files : List WorkItem) (pf : List String)
    (hnd : pf.Nodup) (hsub : ∀ x ∈ pf, x ∈ files.map (·.filename))
    (hndn : (files.map (·.filename)).Nodup) :
    (files.filter (fun f => pf.contains f.filename)).length = pf.length := by
  have hsl : ((files.filter (fun f => pf.contains f.filename)).map
        (·.filename)).Sublist (files.map (·.filename)) :=
    (List.filter_sublist files).map _
  have hnd2 : ((files.filter (fun f => pf.contains f.filename)).map
      (·.filename)).Nodup := hndn.sublist hsl
  have hmem : ∀ x, x ∈ (files.filter (fun f => pf.contains f.filename)).map
      (·.filename) ↔ x ∈ pf := by
    intro x
    constructor
    · intro hx
      obtain ⟨f, hf, hfx⟩ := List.mem_map.mp hx
      have hpred := (List.mem_filter.mp hf).2
      subst hfx
      simpa using hpred
    · intro hx
      obtain ⟨f, hf, hfx⟩ := List.mem_map.mp (hsub x hx)
      refine List.mem_map.mpr ⟨f, List.mem_filter.mpr ⟨hf, ?_⟩, hfx⟩
      rw [hfx]
      simpa using hx
  have hfin : ((files.filter (fun f => pf.contains f.filename)).map
      (·.filename)).toFinset = pf.toFinset := by
    apply Finset.ext
    intro x
    simp only [List.mem_toFinset]
    exact hmem x
  have h1 : ((files.filter (fun f => pf.contains f.filename)).map
      (·.filename)).length = pf.length := by
    rw [← List.toFinset_card_of_nodup hnd2, ← List.toFinset_card_of_nodup hnd,
      hfin]
  simpa using h1

theorem filter_not_contains_length (files : List WorkItem) (pf : List String)
    (hnd : pf.Nodup) (hsub : ∀ x ∈ pf, x ∈ files.map (·.filename))
    (hndn : (files.map (·.filename)).Nodup) :
    (files.filter (fun f => !(pf.contains f.filename))).length
      = files.length - pf.length := by
  have hpart := length_filter_add_length_filter_not files
    (fun f => pf.contains f.filename)
  have hK := filter_contains_length files pf hnd hsub hndn
  omega

theorem processed_le_total (files : List WorkItem) (pf : List String)
    (hnd : pf.Nodup) (hsub : ∀ x ∈ pf, x ∈ files.map (·.filename)) :
    pf.length ≤ files.length := by
  have := (List.subperm_of_subset hnd hsub).length_le
  simpa using this

/-- C5: a stored session whose key (repository, change-set number) does not
match the current run's target is not resumable, the run clears the stored
progress record (`staleCleared`), and it proceeds as a fresh session: the
session it works with is `createInitialProgress` for the run's own target
and no work item is skipped. -/
theorem stale_session_cleared_and_fresh
    (stored : Option ReviewProgress) (p : ReviewProgress) (pull_number : Nat)
    (repository : String) (files : List WorkItem) (now : String)
    (hstored : stored = some p)
    (hmismatch : p.prNumber ≠ pull_number ∨ p.repository ≠ repository)
    (hfiles : files.length ≠ 0) :
    shouldResume stored pull_number repository = false ∧
    (getIndividualFileDiffs stored pull_number repository files now).staleCleared
        = true ∧
    (getIndividualFileDiffs stored pull_number repository files now).initialProgress
        = some (createInitialProgress pull_number repository files.length now) ∧
    (getIndividualFileDiffs stored pull_number repository files now).filesToProcess
        = files := by
  subst hstored
  have hres : shouldResume (some p) pull_number repository = false := by
    unfold shouldResume
    rcases hmismatch with h | h
    · simp [beq_iff_eq, h]
    · simp [beq_iff_eq, h]
  refine ⟨hres, ?_, ?_, ?_⟩
  · unfold getIndividualFileDiffs
    rw [hres]
    simp [hfiles]
  · unfold getIndividualFileDiffs
    rw [hres]
    simp [hfiles]
  · unfold getIndividualFileDiffs
    rw [hres]
    simp [hfiles]

/-- Concrete instantiation of `stale_session_cleared_and_fresh`: a stored
session for PR 1 while the run targets PR 2 of the same repository. -/
theorem stale_session_cleared_and_fresh_witness :
    shouldResume
        (some (⟨1, "o/r", ["a.ts"], [], 1, 1, "t0", false⟩ : ReviewProgress))
        2 "o/r" = false ∧
    (getIndividualFileDiffs
        (some (⟨1, "o/r", ["a.ts"], [], 1, 1, "t0", false⟩ : ReviewProgress))
        2 "o/r" [⟨"b.ts", some "x"⟩] "t1").staleCleared = true ∧
    (getIndividualFileDiffs
        (some (⟨1, "o/r", ["a.ts"], [], 1, 1, "t0", false⟩ : ReviewProgress))
        2 "o/r" [⟨"b.ts", some "x"⟩] "t1").initialProgress
        = some (createInitialProgress 2 "o/r" 1 "t1") ∧
    (getIndividualFileDiffs
        (some (⟨1, "o/r", ["a.ts"], [], 1, 1, "t0", false⟩ : ReviewProgress))
        2 "o/r" [⟨"b.ts", some "x"⟩] "t1").filesToProcess
        = [⟨"b.ts", some "x"⟩] :=
  stale_session_cleared_and_fresh _
    (⟨1, "o/r", ["a.ts"], [], 1, 1, "t0", false⟩ : ReviewProgress) 2 "o/r"
    [⟨"b.ts", some "x"⟩] "t1" rfl (Or.inl (by decide)) (by decide)

/-- C4: a run resuming a matching incomplete session that has already
processed `K` of the `N` work items skips exactly the items already in
`processedFiles`: the worklist is the filter of the not-yet-processed
items, it has `N - K` elements, none of its items is among the `K`
already-processed ones, the output is seeded with the reconstruction of
prior progress, and the final session has `processedFiles.length = N`. -/
theorem resume_processes_exactly_remaining
    (p : ReviewProgress) (pull_number : Nat) (repository : String)
    (files : List WorkItem) (now : String)
    (hres : shouldResume (some p) pull_number repository = true)
    (hfiles : files.length ≠ 0)
    (hnd : p.processedFiles.Nodup)
    (hsub : ∀ x ∈ p.processedFiles, x ∈ files.map (·.filename))
    (hndn : (files.map (·.filename)).Nodup) :
    (getIndividualFileDiffs (some p) pull_number repository files now).filesToProcess
        = remainingFiles p files ∧
    (getIndividualFileDiffs (some p) pull_number repository files now).filesToProcess.length
        = files.length - p.processedFiles.length ∧
    (∀ file ∈ (getIndividualFileDiffs (some p) pull_number repository
        files now).filesToProcess, file.filename ∉ p.processedFiles) ∧
    (∃ rest, (getIndividualFileDiffs (some p) pull_number repository files now).output
        = reconstructDiffFromProgress p ++ rest) ∧
    (∃ q, (getIndividualFileDiffs (some p) pull_number repository files now).final
        = some q ∧ q.processedFiles.length = files.length) := by
  have hKle := processed_le_total files p.processedFiles hnd hsub
  have hFlen : (remainingFiles p files).length
      = files.length - p.processedFiles.length := by
    unfold remainingFiles
    exact filter_not_contains_length files p.processedFiles hnd hsub hndn
  have hmemF : ∀ file ∈ remainingFiles p files,
      file.filename ∉ p.processedFiles := by
    intro file hf
    unfold remainingFiles at hf
    have := (List.mem_filter.mp hf).2
    simpa using this
  by_cases h0 : (remainingFiles p files).length = 0
  · have hrun : getIndividualFileDiffs (some p) pull_number repository files now
        = { output := reconstructDiffFromProgress p, final := some p,
            trace := [], staleCleared := false, initialProgress := some p,
            filesToProcess := remainingFiles p files } := by
      unfold getIndividualFileDiffs
      rw [hres]
      simp [hfiles, h0]
    rw [hrun]
    exact ⟨rfl, hFlen, hmemF, ⟨"", (String.append_empty _).symm⟩,
      ⟨p, rfl, by omega⟩⟩
  · have hrun : getIndividualFileDiffs (some p) pull_number repository files now
        = { output := (runBatches (remainingFiles p files).length 0
              (remainingFiles p files) p (reconstructDiffFromProgress p) []).1,
            final := some (finalizeProgress now
              (runBatches (remainingFiles p files).length 0
                (remainingFiles p files) p
                (reconstructDiffFromProgress p) []).2.1).1,
            trace := (runBatches (remainingFiles p files).length 0
                (remainingFiles p files) p
                (reconstructDiffFromProgress p) []).2.2
              ++ (finalizeProgress now
                (runBatches (remainingFiles p files).length 0
                  (remainingFiles p files) p
                  (reconstructDiffFromProgress p) []).2.1).2,
            staleCleared := false, initialProgress := some p,
            filesToProcess := remainingFiles p files } := by
      unfold getIndividualFileDiffs
      rw [hres]
      simp [hfiles, h0]
    rw [hrun]
    refine ⟨rfl, hFlen, hmemF, ?_, ?_⟩
    · exact runBatches_output_prefix _ 0 _ p (reconstructDiffFromProgress p) []
    · refine ⟨_, rfl, ?_⟩
      rw [finalizeProgress_processedFiles]
      rw [(runBatches_progress _ 0 _ p (reconstructDiffFromProgress p) []
        le_rfl).1]
      simp only [List.length_append, List.length_map]
      omega

/-- Concrete instantiation of `resume_processes_exactly_remaining`: a
matching incomplete session with 1 of 2 files processed. -/
theorem resume_processes_exactly_remaining_witness :
    (getIndividualFileDiffs
        (some (⟨7, "o/r", ["a.ts"], [], 1, 2, "t0", false⟩ : ReviewProgress))
        7 "o/r" [⟨"a.ts", none⟩, ⟨"b.ts", some "x"⟩] "t1").filesToProcess
        = remainingFiles (⟨7, "o/r", ["a.ts"], [], 1, 2, "t0", false⟩)
            [⟨"a.ts", none⟩, ⟨"b.ts", some "x"⟩] ∧
    (getIndividualFileDiffs
        (some (⟨7, "o/r", ["a.ts"], [], 1, 2, "t0", false⟩ : ReviewProgress))
        7 "o/r" [⟨"a.ts", none⟩, ⟨"b.ts", some "x"⟩] "t1").filesToProcess.length
        = 2 - 1 ∧
    (∀ file ∈ (getIndividualFileDiffs
        (some (⟨7, "o/r", ["a.ts"], [], 1, 2, "t0", false⟩ : ReviewProgress))
        7 "o/r" [⟨"a.ts", none⟩, ⟨"b.ts", some "x"⟩] "t1").filesToProcess,
      file.filename ∉ (⟨7, "o/r", ["a.ts"], [], 1, 2, "t0", false⟩
        : ReviewProgress).processedFiles) ∧
    (∃ rest, (getIndividualFileDiffs
        (some (⟨7, "o/r", ["a.ts"], [], 1, 2, "t0", false⟩ : ReviewProgress))
        7 "o/r" [⟨"a.ts", none⟩, ⟨"b.ts", some "x"⟩] "t1").output
        = reconstructDiffFromProgress
            (⟨7, "o/r", ["a.ts"], [], 1, 2, "t0", false⟩ : ReviewProgress)
          ++ rest) ∧
    (∃ q, (getIndividualFileDiffs
        (some (⟨7, "o/r", ["a.ts"], [], 1, 2, "t0", false⟩ : ReviewProgress))
        7 "o/r" [⟨"a.ts", none⟩, ⟨"b.ts", some "x"⟩] "t1").final
        = some q ∧ q.processedFiles.length = 2) :=
  resume_processes_exactly_remaining
    (⟨7, "o/r", ["a.ts"], [], 1, 2, "t0", false⟩ : ReviewProgress) 7 "o/r"
    [⟨"a.ts", none⟩, ⟨"b.ts", some "x"⟩] "t1"
    (by decide) (by decide) (by decide) (by decide) (by decide)

theorem run_core_invariant (F : List WorkItem) (p0 : ReviewProgress)
    (seed now : String)
    (hok : snapshotOk p0) (hcomp : p0.completed = false)
    (hbound : p0.processedFiles.length + F.length ≤ p0.totalFiles) :
    traceMono (p0 :: ((runBatches F.length 0 F p0 seed []).2.2
      ++ (finalizeProgress now (runBatches F.length 0 F p0 seed []).2.1).2)) ∧
    ∀ q ∈ p0 :: ((runBatches F.length 0 F p0 seed []).2.2
      ++ (finalizeProgress now (runBatches F.length 0 F p0 seed []).2.1).2),
      snapshotOk q := by
  have hchain : traceMono ((runBatches F.length 0 F p0 seed []).2.2
      ++ [(runBatches F.length 0 F p0 seed []).2.1]) :=
    runBatches_trace_chain F.length 0 F p0 seed [] le_rfl
      (by simpa [traceMono] using List.chain'_singleton p0)
  have hlb : ∀ q ∈ (runBatches F.length 0 F p0 seed []).2.2,
      p0.processedFiles.length ≤ q.processedFiles.length :=
    runBatches_trace_lb F.length 0 F p0 seed [] _ (by simp) le_rfl
  have hoktr : ∀ q ∈ (runBatches F.length 0 F p0 seed []).2.2, snapshotOk q :=
    runBatches_trace_ok F.length 0 F p0 seed [] le_rfl (by simp) hbound hcomp
  obtain ⟨hpf, htot, hcompl⟩ :=
    runBatches_progress F.length 0 F p0 seed [] le_rfl
  by_cases hdone : (runBatches F.length 0 F p0 seed []).2.1.totalFiles
      ≤ (runBatches F.length 0 F p0 seed []).2.1.processedFiles.length
  · have hfin : finalizeProgress now (runBatches F.length 0 F p0 seed []).2.1
        = (markCompleted now (runBatches F.length 0 F p0 seed []).2.1,
           [markCompleted now (runBatches F.length 0 F p0 seed []).2.1]) := by
      unfold finalizeProgress
      rw [if_pos hdone]
    rw [hfin]
    have hlbm : p0.processedFiles.length
        ≤ (markCompleted now
          (runBatches F.length 0 F p0 seed []).2.1).processedFiles.length := by
      rw [markCompleted_processedFiles, hpf]
      simp only [List.length_append]
      omega
    have hchain2 : traceMono ((runBatches F.length 0 F p0 seed []).2.2
        ++ [markCompleted now (runBatches F.length 0 F p0 seed []).2.1]) :=
      traceMono_last_le hchain
        (show lenLe (runBatches F.length 0 F p0 seed []).2.1
          (markCompleted now (runBatches F.length 0 F p0 seed []).2.1) from
          le_refl _)
    have hokm : snapshotOk (markCompleted now
        (runBatches F.length 0 F p0 seed []).2.1) := by
      constructor
      · rw [markCompleted_processedFiles, markCompleted_totalFiles, hpf, htot]
        simp only [List.length_append, List.length_map]
        omega
      · intro _
        rw [markCompleted_processedFiles, markCompleted_totalFiles]
        exact hdone
    constructor
    · unfold traceMono
      rw [List.chain'_cons']
      refine ⟨?_, hchain2⟩
      intro y hy
      cases hR : (runBatches F.length 0 F p0 seed []).2.2 with
      | nil =>
        rw [hR] at hy
        simp at hy
        subst hy
        exact hlbm
      | cons a l =>
        rw [hR] at hy
        simp at hy
        subst hy
        exact hlb a (by rw [hR]; simp)
    · intro q hq
      rcases List.mem_cons.mp hq with h | h
      · subst h; exact hok
      · rcases List.mem_append.mp h with h | h
        · exact hoktr q h
        · simp at h; subst h; exact hokm
  · have hfin : finalizeProgress now (runBatches F.length 0 F p0 seed []).2.1
        = ((runBatches F.length 0 F p0 seed []).2.1, []) := by
      unfold finalizeProgress
      rw [if_neg hdone]
    rw [hfin]
    simp only [List.append_nil]
    constructor
    · unfold traceMono
      rw [List.chain'_cons']
      constructor
      · intro y hy
        cases hR : (runBatches F.length 0 F p0 seed []).2.2 with
        | nil => rw [hR] at hy; simp at hy
        | cons a l =>
          rw [hR] at hy
          simp at hy
          subst hy
          exact hlb a (by rw [hR]; simp)
      · have := (List.chain'_append.mp hchain).1
        exact this
    · intro q hq
      rcases List.mem_cons.mp hq with h | h
      · subst h; exact hok
      · exact hoktr q h

/-- C6: across every checkpointed state of a session's lifetime — its
initial state followed by every snapshot `saveProgress` writes — the
processed-file count is monotonically non-decreasing and never exceeds
`totalFiles`, and any state with `completed = true` has
`processedFiles.length >= totalFiles`.  The consistency hypothesis states
that a resumed session belongs to this worklist: its processed files are
distinct names of the run's work items and its `totalFiles` is the
worklist length. -/
theorem session_progress_invariant
    (stored : Option ReviewProgress) (pull_number : Nat) (repository : String)
    (files : List WorkItem) (now : String)
    (hconsistent : ∀ p, stored = some p →
      shouldResume stored pull_number repository = true →
      p.processedFiles.Nodup ∧
        (∀ x ∈ p.processedFiles, x ∈ files.map (·.filename)) ∧
        (files.map (·.filename)).Nodup ∧ p.totalFiles = files.length) :
    ∀ p0, (getIndividualFileDiffs stored pull_number repository
        files now).initialProgress = some p0 →
      traceMono (p0 :: (getIndividualFileDiffs stored pull_number repository
        files now).trace) ∧
      ∀ q ∈ p0 :: (getIndividualFileDiffs stored pull_number repository
        files now).trace, snapshotOk q := by
  intro p0 hp0
  by_cases hf0 : files.length = 0
  · exfalso
    have : (getIndividualFileDiffs stored pull_number repository
        files now).initialProgress = none := by
      unfold getIndividualFileDiffs
      simp [hf0]
    rw [hp0] at this
    exact absurd this (by simp)
  by_cases hres : shouldResume stored pull_number repository = true
  · obtain ⟨p, hp⟩ : ∃ p, stored = some p := by
      cases stored with
      | none => exact absurd hres (by simp [shouldResume])
      | some p => exact ⟨p, rfl⟩
    subst hp
    obtain ⟨hnd, hsub, hndn, htotal⟩ := hconsistent p rfl hres
    obtain ⟨_, _, hcompfalse⟩ := shouldResume_true_elim hres
    have hKle := processed_le_total files p.processedFiles hnd hsub
    have hFlen : (remainingFiles p files).length
        = files.length - p.processedFiles.length := by
      unfold remainingFiles
      exact filter_not_contains_length files p.processedFiles hnd hsub hndn
    have hokp : snapshotOk p := by
      constructor
      · rw [htotal]; exact hKle
      · intro hc; rw [hc] at hcompfalse; exact absurd hcompfalse (by simp)
    by_cases h0 : (remainingFiles p files).length = 0
    · have hrun : getIndividualFileDiffs (some p) pull_number repository files now
          = { output := reconstructDiffFromProgress p, final := some p,
              trace := [], staleCleared := false, initialProgress := some p,
              filesToProcess := remainingFiles p files } := by
        unfold getIndividualFileDiffs
        rw [hres]
        simp [hf0, h0]
      rw [hrun] at hp0 ⊢
      simp only [Option.some.injEq] at hp0
      subst hp0
      constructor
      · exact List.chain'_singleton p
      · intro q hq
        simp at hq
        subst hq
        exact hokp
    · have hrun : getIndividualFileDiffs (some p) pull_number repository files now
          = { output := (runBatches (remainingFiles p files).length 0
                (remainingFiles p files) p (reconstructDiffFromProgress p) []).1,
              final := some (finalizeProgress now
                (runBatches (remainingFiles p files).length 0
                  (remainingFiles p files) p
                  (reconstructDiffFromProgress p) []).2.1).1,
              trace := (runBatches (remainingFiles p files).length 0
                  (remainingFiles p files) p
                  (reconstructDiffFromProgress p) []).2.2
                ++ (finalizeProgress now
                  (runBatches (remainingFiles p files).length 0
                    (remainingFiles p files) p
                    (reconstructDiffFromProgress p) []).2.1).2,
              staleCleared := false, initialProgress := some p,
              filesToProcess := remainingFiles p files } := by
        unfold getIndividualFileDiffs
        rw [hres]
        simp [hf0, h0]
      rw [hrun] at hp0 ⊢
      simp only [Option.some.injEq] at hp0
      subst hp0
      exact run_core_invariant (remainingFiles p files) p
        (reconstructDiffFromProgress p) now hokp hcompfalse
        (by rw [htotal]; omega)
  · have hres' : shouldResume stored pull_number repository = false := by
      simpa using hres
    have hrun : getIndividualFileDiffs stored pull_number repository files now
        = { output := (runBatches files.length 0 files
              (createInitialProgress pull_number repository files.length now)
              "" []).1,
            final := some (finalizeProgress now
              (runBatches files.length 0 files
                (createInitialProgress pull_number repository files.length now)
                "" []).2.1).1,
            trace := (runBatches files.length 0 files
                (createInitialProgress pull_number repository files.length now)
                "" []).2.2
              ++ (finalizeProgress now
                (runBatches files.length 0 files
                  (createInitialProgress pull_number repository
                    files.length now) "" []).2.1).2,
            staleCleared := stored.isSome, initialProgress :=
              some (createInitialProgress pull_number repository
                files.length now),
            filesToProcess := files } := by
      unfold getIndividualFileDiffs
      rw [hres']
      cases stored with
      | none => simp [hf0]
      | some p => simp [hf0]
    rw [hrun] at hp0 ⊢
    simp only [Option.some.injEq] at hp0
    subst hp0
    exact run_core_invariant files
      (createInitialProgress pull_number repository files.length now) "" now
      (by constructor <;> simp [createInitialProgress])
      (by simp [createInitialProgress])
      (by simp [createInitialProgress])

/-- Concrete instantiation of `session_progress_invariant` on a resumed
1-of-2 session. -/
theorem session_progress_invariant_witness :
    traceMono ((⟨7, "o/r", ["a.ts"], [], 1, 2, "t0", false⟩ : ReviewProgress)
      :: (getIndividualFileDiffs
        (some (⟨7, "o/r", ["a.ts"], [], 1, 2, "t0", false⟩ : ReviewProgress))
        7 "o/r" [⟨"a.ts", none⟩, ⟨"b.ts", some "x"⟩] "t1").trace) ∧
    ∀ q ∈ (⟨7, "o/r", ["a.ts"], [], 1, 2, "t0", false⟩ : ReviewProgress)
      :: (getIndividualFileDiffs
        (some (⟨7, "o/r", ["a.ts"], [], 1, 2, "t0", false⟩ : ReviewProgress))
        7 "o/r" [⟨"a.ts", none⟩, ⟨"b.ts", some "x"⟩] "t1").trace,
      snapshotOk q :=
  session_progress_invariant
    (some (⟨7, "o/r", ["a.ts"], [], 1, 2, "t0", false⟩ : ReviewProgress))
    7 "o/r" [⟨"a.ts", none⟩, ⟨"b.ts", some "x"⟩] "t1"
    (fun p hp _ => by
      injection hp with h
      subst h
      exact ⟨by decide, by decide, by decide, by decide⟩)
    (⟨7, "o/r", ["a.ts"], [], 1, 2, "t0", false⟩ : ReviewProgress)
    (by decide)

/-! ### Line-split algebra and trim lemmas -/

theorem lineSplit_ne_nil : ∀ cs : List Char, lineSplit cs ≠ [] := by
  intro cs
  cases cs with
  | nil => simp [lineSplit]
  | cons c cs' =>
    by_cases hc : c = '\n'
    · simp [lineSplit, hc]
    · simp only [lineSplit, hc, if_false]
      cases lineSplit cs' with
      | nil => simp
      | cons l ls => simp

theorem lineSplit_append_newline : ∀ A B : List Char,
    lineSplit (A ++ '\n' :: B) = lineSplit A ++ lineSplit B := by
  intro A
  induction A with
  | nil => intro B; simp [lineSplit]
  | cons c A' ih =>
    intro B
    by_cases hc : c = '\n'
    · subst hc
      simp only [List.cons_append, lineSplit, List.append_eq, if_true]
      rw [ih]
    · simp only [List.cons_append, lineSplit, List.append_eq, hc, if_false]
      rw [ih]
      cases hA : lineSplit A' with
      | nil => exact absurd hA (lineSplit_ne_nil A')
      | cons l ls => simp

theorem lineSplit_no_newline : ∀ l : List Char,
    (∀ c ∈ l, c ≠ '\n') → lineSplit l = [l] := by
  intro l
  induction l with
  | nil => intro _; rfl
  | cons c l' ih =>
    intro h
    have hc : c ≠ '\n' := h c (by simp)
    simp only [lineSplit, hc, if_false]
    rw [ih (fun d hd => h d (by simp [hd]))]

theorem joinLinesData_lineSplit : ∀ cs : List Char,
    joinLinesData (lineSplit cs) = cs := by
  intro cs
  induction cs with
  | nil => rfl
  | cons c cs' ih =>
    by_cases hc : c = '\n'
    · subst hc
      simp only [lineSplit, if_true]
      cases hla : lineSplit cs' with
      | nil => exact absurd hla (lineSplit_ne_nil cs')
      | cons l ls =>
        rw [hla] at ih
        simp [joinLinesData, ih]
    · simp only [lineSplit, hc, if_false]
      cases hla : lineSplit cs' with
      | nil => exact absurd hla (lineSplit_ne_nil cs')
      | cons l ls =>
        rw [hla] at ih
        cases ls with
        | nil =>
          simp only [joinLinesData] at ih ⊢
          rw [ih]
        | cons l2 ls2 =>
          simp only [joinLinesData] at ih ⊢
          rw [List.cons_append, ih]

theorem joinLines_linesOf (s : String) : joinLines (linesOf s) = s := by
  unfold joinLines linesOf
  rw [List.map_map]
  have hmaps : (lineSplit s.data).map (String.data ∘ String.mk)
      = lineSplit s.data := by
    apply List.map_id''
    intro l
    rfl
  rw [hmaps, joinLinesData_lineSplit, mk_data]

theorem trimData_eq_self {a b : Char} (mid : List Char)
    (ha : a.isWhitespace = false) (hb : b.isWhitespace = false) :
    (((a :: (mid ++ [b])).dropWhile Char.isWhitespace).reverse.dropWhile
      Char.isWhitespace).reverse = a :: (mid ++ [b]) := by
  rw [List.dropWhile_cons, ha]
  simp only [Bool.false_eq_true, if_false]
  have hrev : (a :: (mid ++ [b])).reverse = b :: (mid.reverse ++ [a]) := by
    simp
  rw [hrev, List.dropWhile_cons, hb]
  simp only [Bool.false_eq_true, if_false]
  rw [← hrev, List.reverse_reverse]

theorem jsTrim_edge {a b : Char} (mid : List Char)
    (ha : a.isWhitespace = false) (hb : b.isWhitespace = false) :
    jsTrim (String.mk (a :: (mid ++ [b]))) = String.mk (a :: (mid ++ [b])) := by
  unfold jsTrim
  rw [show (String.mk (a :: (mid ++ [b]))).data = a :: (mid ++ [b]) from rfl]
  rw [trimData_eq_self mid ha hb]

theorem jsTrim_single {a : Char} (ha : a.isWhitespace = false) :
    jsTrim (String.mk [a]) = String.mk [a] := by
  unfold jsTrim
  rw [show (String.mk [a]).data = [a] from rfl]
  rw [List.dropWhile_cons, ha]
  simp [ha]

theorem isPrefixOf_of_append {l1 l2 : List Char} : ∀ l3 : List Char,
    (l1 ++ l2).isPrefixOf l3 = true → l1.isPrefixOf l3 = true := by
  induction l1 with
  | nil => intro l3 _; simp
  | cons a as ih =>
    intro l3 h
    cases l3 with
    | nil => simp at h
    | cons b bs =>
      rw [List.cons_append, List.isPrefixOf_cons₂] at h
      rw [List.isPrefixOf_cons₂]
      rw [Bool.and_eq_true] at h ⊢
      exact ⟨h.1, ih bs h.2⟩

theorem startsWith_json_imp_fence (s : String)
    (h : jsStartsWith s "```json" = true) : jsStartsWith s "```" = true := by
  unfold jsStartsWith at h ⊢
  have : ("```json" : String).data = ("```" : String).data ++ "json".data := rfl
  rw [this] at h
  exact isPrefixOf_of_append s.data h

/-- C7: a model reply that wraps valid structured content in triple-backtick
fencing (with or without a language tag) parses exactly like the unfenced
content alone; in particular a fenced reply whose content decodes to the
object `\x7breviews: []\x7d` yields the empty review list, not a parse
failure.  The hypotheses say the fenced payload is a trimmed, nonempty
body that does not itself start with a fence, and the language tag has no
newline. -/
theorem fenced_reply_parses_like_unfenced
    (decode : String → Option JsValue) (tag content : String)
    (htag : ∀ c ∈ tag.data, c ≠ '\n')
    (htrim : jsTrim content = content)
    (hne : content ≠ "")
    (hfence : jsStartsWith content "```" = false) :
    getAIResponse decode ("```" ++ tag ++ "\n" ++ content ++ "\n```")
        = getAIResponse decode content ∧
    (decode (jsTrim (stripEdgeBackticks content))
        = some (JsValue.obj [("reviews", JsValue.arr [])]) →
      getAIResponse decode ("```" ++ tag ++ "\n" ++ content ++ "\n```")
        = some (JsValue.arr [])) := by
  have hbt : backtick.isWhitespace = false := by decide
  have hdata : ("```" ++ tag ++ "\n" ++ content ++ "\n```").data
      = backtick :: ((backtick :: backtick :: tag.data ++ '\n' :: content.data
          ++ ['\n', backtick, backtick]) ++ [backtick]) := by
    simp only [String.data_append]
    show ['\x60', '\x60', '\x60'] ++ tag.data ++ ['\n'] ++ content.data
        ++ ['\n', '\x60', '\x60', '\x60']
      = '\x60' :: (('\x60' :: '\x60' :: tag.data ++ '\n' :: content.data
          ++ ['\n', '\x60', '\x60']) ++ ['\x60'])
    simp
  have hfe : ("```" ++ tag ++ "\n" ++ content ++ "\n```")
      = String.mk (backtick :: ((backtick :: backtick :: tag.data
          ++ '\n' :: content.data ++ ['\n', backtick, backtick])
          ++ [backtick])) :=
    (mk_data _).symm.trans (congrArg String.mk hdata)
  have htrimF : jsTrim ("```" ++ tag ++ "\n" ++ content ++ "\n```")
      = ("```" ++ tag ++ "\n" ++ content ++ "\n```") := by
    rw [hfe]
    exact jsTrim_edge _ hbt hbt
  have hneF : ("```" ++ tag ++ "\n" ++ content ++ "\n```") ≠ "" := by
    rw [hfe]
    intro h
    rw [mk_eq_empty_iff] at h
    simp at h
  have hsw : jsStartsWith ("```" ++ tag ++ "\n" ++ content ++ "\n```") "```"
      = true := by
    unfold jsStartsWith
    rw [hdata]
    rw [show ("```" : String).data = [backtick, backtick, backtick] from rfl]
    simp [List.isPrefixOf_cons₂]
  have hnonl : ∀ c ∈ backtick :: backtick :: backtick :: tag.data,
      c ≠ '\n' := by
    intro c hc
    simp only [List.mem_cons] at hc
    rcases hc with h | h | h | h
    · subst h; decide
    · subst h; decide
    · subst h; decide
    · exact htag c h
  have hlines : linesOf ("```" ++ tag ++ "\n" ++ content ++ "\n```")
      = String.mk (backtick :: backtick :: backtick :: tag.data)
          :: (linesOf content ++ ["```"]) := by
    unfold linesOf
    rw [hdata]
    rw [show backtick :: ((backtick :: backtick :: tag.data
          ++ '\n' :: content.data ++ ['\n', backtick, backtick]) ++ [backtick])
        = (backtick :: backtick :: backtick :: tag.data)
          ++ '\n' :: (content.data ++ '\n' :: [backtick, backtick, backtick])
        from by simp]
    rw [lineSplit_append_newline, lineSplit_append_newline]
    rw [lineSplit_no_newline (backtick :: backtick :: backtick :: tag.data)
      hnonl]
    rw [lineSplit_no_newline [backtick, backtick, backtick] (by decide)]
    simp only [List.map_append, List.map_cons, List.map_nil,
      List.singleton_append, List.cons_append, List.nil_append]
    rfl
  have h3 : jsTrim "```" = "```" := jsTrim_edge [backtick] hbt hbt
  have hcleanF : cleanResponse ("```" ++ tag ++ "\n" ++ content ++ "\n```")
      = some (jsTrim (stripEdgeBackticks content)) := by
    simp only [cleanResponse]
    rw [htrimF, if_neg hneF]
    by_cases hj : jsStartsWith ("```" ++ tag ++ "\n" ++ content ++ "\n```")
        "```json" = true
    · rw [if_pos hj, hlines]
      simp only [List.drop_succ_cons, List.drop_zero]
      rw [List.getLast?_concat]
      simp only [h3, if_true]
      rw [List.dropLast_concat]
      rw [joinLines_linesOf, htrim]
      rfl
    · rw [if_neg hj, if_pos hsw, hlines]
      simp only [List.drop_succ_cons, List.drop_zero]
      rw [List.getLast?_concat]
      simp only [h3, if_true]
      rw [List.dropLast_concat]
      rw [joinLines_linesOf, htrim]
      rfl
  have hj' : jsStartsWith content "```json" = false := by
    by_contra hcon
    rw [Bool.not_eq_false] at hcon
    have hpre := startsWith_json_imp_fence content hcon
    rw [hfence] at hpre
    simp at hpre
  have hjn : ¬jsStartsWith content "```json" = true := by
    rw [hj']; simp
  have hfn : ¬jsStartsWith content "```" = true := by
    rw [hfence]; simp
  have hcleanU : cleanResponse content
      = some (jsTrim (stripEdgeBackticks content)) := by
    simp only [cleanResponse]
    rw [htrim, if_neg hne]
    rw [if_neg hjn, if_neg hfn]
    rfl
  constructor
  · unfold getAIResponse
    rw [hcleanF, hcleanU]
  · intro hdec
    unfold getAIResponse
    rw [hcleanF]
    simp only [hdec]
    rfl

/-- Concrete instantiation of `fenced_reply_parses_like_unfenced`: the
reply `` ```json\n\x7b"reviews":[]\x7d\n``` `` parses to the empty review
list. -/
theorem fenced_reply_parses_like_unfenced_witness :
    getAIResponse
        (fun s => if s = "\x7b\"reviews\":[]\x7d"
          then some (JsValue.obj [("reviews", JsValue.arr [])]) else none)
        ("```" ++ "json" ++ "\n" ++ "\x7b\"reviews\":[]\x7d" ++ "\n```")
      = getAIResponse
        (fun s => if s = "\x7b\"reviews\":[]\x7d"
          then some (JsValue.obj [("reviews", JsValue.arr [])]) else none)
        "\x7b\"reviews\":[]\x7d" ∧
    getAIResponse
        (fun s => if s = "\x7b\"reviews\":[]\x7d"
          then some (JsValue.obj [("reviews", JsValue.arr [])]) else none)
        ("```" ++ "json" ++ "\n" ++ "\x7b\"reviews\":[]\x7d" ++ "\n```")
      = some (JsValue.arr []) := by
  have h := fenced_reply_parses_like_unfenced
    (fun s => if s = "\x7b\"reviews\":[]\x7d"
      then some (JsValue.obj [("reviews", JsValue.arr [])]) else none)
    "json" "\x7b\"reviews\":[]\x7d"
    (by decide) (by decide) (by decide) (by decide)
  exact ⟨h.1, h.2 (by rfl)⟩

/-- C8: after fence stripping, a failed structural decode makes the parser
return the `null` parse failure; a successful decode whose value has no
`reviews` field is returned whole as the comment list; and the caller
treats a `null` reply exactly as an empty review list for that unit -
`analyzeCode` is unchanged when every `none` oracle reply is replaced by
`some []`, so one malformed reply never aborts the run. -/
theorem parse_failure_isolated
    (decode₁ decode₂ : String → Option JsValue)
    (raw₁ raw₂ cleaned₁ cleaned₂ : String) (j : JsValue)
    (jsNumber : String → Int) (ai : String → Option (List AIReview))
    (parsedDiff : List ParsedFile) (prDetails : PRDetails)
    (hclean₁ : cleanResponse raw₁ = some cleaned₁)
    (hfail : decode₁ cleaned₁ = none)
    (hclean₂ : cleanResponse raw₂ = some cleaned₂)
    (hsucc : decode₂ cleaned₂ = some j)
    (hnoField : jsField j "reviews" = none) :
    getAIResponse decode₁ raw₁ = none ∧
    getAIResponse decode₂ raw₂ = some j ∧
    analyzeCode jsNumber ai parsedDiff prDetails
      = analyzeCode jsNumber (fun p => some ((ai p).getD []))
          parsedDiff prDetails := by
  refine ⟨?_, ?_, ?_⟩
  · unfold getAIResponse
    rw [hclean₁]
    simp [hfail]
  · unfold getAIResponse
    rw [hclean₂]
    simp [hsucc, extractReviews, hnoField]
  · unfold analyzeCode
    refine List.foldl_ext _ _ _ ?_
    intro acc file _
    by_cases hdel : (file.to_ == some "/dev/null") = true
    · rw [if_pos hdel, if_pos hdel]
    · rw [if_neg hdel, if_neg hdel]
      refine List.foldl_ext _ _ _ ?_
      intro a chunk _
      cases hai : ai (createPrompt file chunk prDetails) with
      | none => simp [hai, createComment]
      | some r => simp [hai]

/-- Concrete instantiation of `parse_failure_isolated`: a reply decoding
to `null` parses to `none`, a decoded bare array is returned whole, and an
all-`none` oracle gives `analyzeCode` the same (empty) output as an
all-`some []` oracle. -/
theorem parse_failure_isolated_witness :
    getAIResponse (fun _ => none) "x" = none ∧
    getAIResponse (fun _ => some (JsValue.arr [])) "y"
      = some (JsValue.arr []) ∧
    analyzeCode (fun _ => 0) (fun _ => none) [] ⟨"o", "r", 1, "t", "d"⟩
      = analyzeCode (fun _ => 0)
          (fun p => some (((fun _ => (none : Option (List AIReview))) p).getD []))
          [] ⟨"o", "r", 1, "t", "d"⟩ :=
  parse_failure_isolated (fun _ => none) (fun _ => some (JsValue.arr []))
    "x" "y" "x" "y" (JsValue.arr []) (fun _ => 0) (fun _ => none)
    [] ⟨"o", "r", 1, "t", "d"⟩
    (by decide) rfl (by decide) rfl rfl

/-- C10: a parsed diff file whose new path is `/dev/null` (a deleted file)
is skipped by `analyzeCode`: it triggers no analysis call and contributes
no comments, so the result on any diff containing it equals the result on
the same diff with the file removed - both for the comment list and for
the instrumented variant that also records every prompt sent. -/
theorem deleted_file_contributes_nothing
    (jsNumber : String → Int) (ai : String → Option (List AIReview))
    (pre post : List ParsedFile) (file : ParsedFile)
    (prDetails : PRDetails)
    (hdel : file.to_ = some "/dev/null") :
    analyzeCode jsNumber ai (pre ++ file :: post) prDetails
      = analyzeCode jsNumber ai (pre ++ post) prDetails ∧
    analyzeCodeCalls jsNumber ai (pre ++ file :: post) prDetails
      = analyzeCodeCalls jsNumber ai (pre ++ post) prDetails := by
  have hb : (file.to_ == some "/dev/null") = true := by
    rw [hdel]
    exact beq_self_eq_true _
  constructor
  · unfold analyzeCode
    simp only [List.foldl_append, List.foldl_cons, hb, if_true]
  · unfold analyzeCodeCalls
    simp only [List.foldl_append, List.foldl_cons, hb, if_true]

/-- Concrete instantiation of `deleted_file_contributes_nothing`: a
one-file diff that only deletes `a.ts` analyzes identically to the empty
diff. -/
theorem deleted_file_contributes_nothing_witness :
    analyzeCode (fun _ => 0) (fun _ => some [])
        ([] ++ (⟨some "a.ts", some "/dev/null", []⟩ : ParsedFile) :: [])
        ⟨"o", "r", 1, "t", "d"⟩
      = analyzeCode (fun _ => 0) (fun _ => some []) ([] ++ [])
        ⟨"o", "r", 1, "t", "d"⟩ ∧
    analyzeCodeCalls (fun _ => 0) (fun _ => some [])
        ([] ++ (⟨some "a.ts", some "/dev/null", []⟩ : ParsedFile) :: [])
        ⟨"o", "r", 1, "t", "d"⟩
      = analyzeCodeCalls (fun _ => 0) (fun _ => some []) ([] ++ [])
        ⟨"o", "r", 1, "t", "d"⟩ :=
  deleted_file_contributes_nothing (fun _ => 0) (fun _ => some []) [] []
    ⟨some "a.ts", some "/dev/null", []⟩ ⟨"o", "r", 1, "t", "d"⟩ rfl

theorem sliceGo_nil (n fuel : Nat) : sliceGo n fuel ([] : List α) = [] := by
  cases fuel <;> rfl

theorem sliceGo_cons (n fuel : Nat) (x : α) (xs : List α) :
    sliceGo n (fuel + 1) (x :: xs)
      = (x :: xs).take n :: sliceGo n fuel ((x :: xs).drop n) := rfl

theorem sliceGo_fuelIrrel {n : Nat} (hn : 1 ≤ n) :
    ∀ (fuel fuel' : Nat) (l : List α), l.length ≤ fuel →
      l.length ≤ fuel' → sliceGo n fuel l = sliceGo n fuel' l := by
  intro fuel
  induction fuel with
  | zero =>
    intro fuel' l h _
    have hl : l = [] := List.eq_nil_of_length_eq_zero (Nat.le_zero.mp h)
    subst hl
    rw [sliceGo_nil, sliceGo_nil]
  | succ f ih =>
    intro fuel' l h h'
    cases l with
    | nil => rw [sliceGo_nil, sliceGo_nil]
    | cons x xs =>
      cases fuel' with
      | zero =>
        exact absurd h' (by simp)
      | succ f' =>
        rw [sliceGo_cons, sliceGo_cons]
        refine congrArg (List.cons _) (ih f' _ ?_ ?_)
        · simp only [List.length_drop, List.length_cons] at h ⊢
          omega
        · simp only [List.length_drop, List.length_cons] at h' ⊢
          omega

theorem sliceGo_flatten {n : Nat} (hn : 1 ≤ n) :
    ∀ (fuel : Nat) (l : List α), l.length ≤ fuel →
      (sliceGo n fuel l).flatten = l := by
  intro fuel
  induction fuel with
  | zero =>
    intro l h
    have hl : l = [] := List.eq_nil_of_length_eq_zero (Nat.le_zero.mp h)
    subst hl
    rfl
  | succ f ih =>
    intro l h
    cases l with
    | nil => rfl
    | cons x xs =>
      rw [sliceGo_cons, List.flatten_cons, ih _ ?_, List.take_append_drop]
      simp only [List.length_drop, List.length_cons] at h ⊢
      omega

theorem slices_length_zero_iff (n : Nat) (l : List α) :
    (slices n l).length = 0 ↔ l.length = 0 := by
  cases l with
  | nil => simp [slices, sliceGo_nil]
  | cons x xs =>
    unfold slices
    rw [List.length_cons, sliceGo_cons]
    simp

theorem postBatchesGo_spec (submit : Nat → SubmitOutcome) :
    ∀ (fuel b : Nat) (comments : List ReviewComment),
      comments.length ≤ fuel →
      postBatchesGo submit fuel b comments
        = (expectedCount submit (List.enumFrom b (slices 5 comments)),
           expectedActions submit (List.enumFrom b (slices 5 comments))) := by
  intro fuel
  induction fuel with
  | zero =>
    intro b comments h
    have hl : comments = [] := List.eq_nil_of_length_eq_zero (Nat.le_zero.mp h)
    subst hl
    rfl
  | succ f ih =>
    intro b comments h
    cases comments with
    | nil => rfl
    | cons c cs =>
      have hslice : slices 5 (c :: cs)
          = (c :: cs).take 5 :: slices 5 ((c :: cs).drop 5) := by
        unfold slices
        rw [List.length_cons, sliceGo_cons]
        refine congrArg (List.cons _) ?_
        refine sliceGo_fuelIrrel (by omega) _ _ _ ?_ ?_
        · simp only [List.length_drop, List.length_cons]
          omega
        · exact Nat.le_refl _
      have hrest : ((c :: cs).drop 5).length ≤ f := by
        simp only [List.length_drop, List.length_cons] at h ⊢
        omega
      have htail := ih (b + 1) ((c :: cs).drop 5) hrest
      have hcond : ((List.enumFrom (b + 1)
            (slices 5 ((c :: cs).drop 5))).length ≠ 0)
          = (((c :: cs).drop 5).length ≠ 0) := by
        rw [List.enumFrom_length]
        by_cases hr : ((c :: cs).drop 5).length = 0
        · rw [(slices_length_zero_iff 5 _).mpr hr, hr]
        · have hs : (slices 5 ((c :: cs).drop 5)).length ≠ 0 := by
            intro h0
            exact hr ((slices_length_zero_iff 5 _).mp h0)
          exact propext ⟨fun _ => hr, fun _ => hs⟩
      cases hsb : submit b with
      | ok =>
        simp only [postBatchesGo, hsb, htail, hslice]
        rw [show List.enumFrom b ((c :: cs).take 5
              :: slices 5 ((c :: cs).drop 5))
            = (b, (c :: cs).take 5)
              :: List.enumFrom (b + 1) (slices 5 ((c :: cs).drop 5))
            from rfl]
        simp only [expectedCount, expectedActions, hsb]
        simp only [hcond]
        simp
      | err rl =>
        simp only [postBatchesGo, hsb, htail, hslice]
        rw [show List.enumFrom b ((c :: cs).take 5
              :: slices 5 ((c :: cs).drop 5))
            = (b, (c :: cs).take 5)
              :: List.enumFrom (b + 1) (slices 5 ((c :: cs).drop 5))
            from rfl]
        simp only [expectedCount, expectedActions, hsb]
        simp

/-- C9: the submission loop attempts every 5-comment batch exactly once,
in order, regardless of failures: its action trace is exactly
`expectedActions` over the indexed batch list (each batch submitted once;
a success followed by the 3000 ms inter-batch wait when batches remain; a
rate-limited failure followed by the single 10000 ms cooldown and nothing
else - no requeue, no retry; the loop always continues), its returned
success count is exactly the total size of the successfully submitted
batches, and the batches partition the validated comment list. -/
theorem batch_failure_isolated (submit : Nat → SubmitOutcome)
    (comments : List ReviewComment) :
    (postReviewComments submit comments).2
      = expectedActions submit (List.enumFrom 0 (slices 5 comments)) ∧
    (postReviewComments submit comments).1
      = expectedCount submit (List.enumFrom 0 (slices 5 comments)) ∧
    (slices 5 comments).flatten = comments := by
  have h := postBatchesGo_spec submit comments.length 0 comments
    (Nat.le_refl _)
  unfold postReviewComments
  rw [h]
  exact ⟨rfl, rfl, sliceGo_flatten (by omega) _ _ (Nat.le_refl _)⟩

end AICodeReviewer
